import Mathlib

set_option maxHeartbeats 1000000

namespace Emlang

/-!
Shallow embedding of the emlang core: the grammar validator / AST builder
(`internal/parser`, together with `ast.ParseSwimlane`) and the layout engine
(`internal/diagram`).  The generic tree-node source (the YAML decoder) is an
external collaborator: parsing here starts from the decoded node tree, one
`Node.document` per physical document.  Go maps are modelled as association
lists with replace-on-insert; Go `nil` slices and empty slices are both `[]`.
-/

/-- Node kinds of the generic tree (yaml.Kind). -/
inductive Kind where
  | documentNode
  | scalarNode
  | sequenceNode
  | mappingNode
  | aliasNode
deriving DecidableEq, Repr

/-- A decoded tree node (yaml.Node): kind, tag/value for scalars, children,
1-based line/column, and alias nodes carrying their resolved target. -/
inductive Node where
  | scalar (tag : String) (value : String) (line col : Nat)
  | sequence (items : List Node) (line col : Nat)
  | mapping (pairs : List (Node × Node)) (line col : Nat)
  | aliasNode (target : Node) (line col : Nat)
  | document (items : List Node) (line col : Nat)

/-- The kind of a node. -/
def kindOf : Node → Kind
  | .scalar _ _ _ _ => .scalarNode
  | .sequence _ _ _ => .sequenceNode
  | .mapping _ _ _ => .mappingNode
  | .aliasNode _ _ _ => .aliasNode
  | .document _ _ _ => .documentNode

/-- Source line of a node (node.Line). -/
def nodeLine : Node → Nat
  | .scalar _ _ l _ => l
  | .sequence _ l _ => l
  | .mapping _ l _ => l
  | .aliasNode _ l _ => l
  | .document _ l _ => l

/-- Source column of a node (node.Column). -/
def nodeCol : Node → Nat
  | .scalar _ _ _ c => c
  | .sequence _ _ c => c
  | .mapping _ _ c => c
  | .aliasNode _ _ c => c
  | .document _ _ c => c

/-- Scalar text of a node (node.Value; empty for non-scalar nodes). -/
def nodeValue : Node → String
  | .scalar _ v _ _ => v
  | _ => ""

/-- isNullNode: a scalar node tagged !!null. -/
def isNullNode : Node → Bool
  | .scalar tag _ _ _ => tag == "!!null"
  | _ => false

/-- Alias dereferencing at the head of parseElement (node = node.Alias). -/
def resolveAlias : Node → Node
  | .aliasNode target _ _ => target
  | n => n

/-- Go unicode.IsSpace: the Unicode White_Space code points. -/
def goIsSpace (c : Char) : Bool :=
  let n := c.toNat
  n == 9 || n == 10 || n == 11 || n == 12 || n == 13 || n == 32 ||
  n == 133 || n == 160 || n == 5760 ||
  (Nat.ble 8192 n && Nat.ble n 8202) ||
  n == 8232 || n == 8233 || n == 8239 || n == 8287 || n == 12288

/-- strings.TrimSpace on the character list: drop leading and trailing
White_Space characters. -/
def trimSpaceL (l : List Char) : List Char :=
  (((l.dropWhile goIsSpace).reverse).dropWhile goIsSpace).reverse

/-- strings.TrimSpace. -/
def trimSpace (s : String) : String :=
  ⟨trimSpaceL s.data⟩

/-- strings.HasSuffix(s, "/"): '/' is ASCII, so the byte test is a test on
the last character. -/
def hasSuffixSlash (s : String) : Bool :=
  match s.data.getLast? with
  | some c => c == '/'
  | none => false

/-- Split a character list at the first '/': prefix and remainder, or none
when no '/' occurs.  Mirrors the scan in ast.ParseSwimlane. -/
def splitSwim : List Char → Option (List Char × List Char)
  | [] => none
  | c :: rest =>
    if c = '/' then some ([], rest)
    else
      match splitSwim rest with
      | none => none
      | some (a, b) => some (c :: a, b)

/-- Element types (ast.ElementType); the zero value is trigger. -/
inductive ElementType where
  | trigger
  | command
  | event
  | exception
  | view
deriving DecidableEq, Repr

/-- ElementType.String(). -/
def elementTypeString : ElementType → String
  | .trigger => "trigger"
  | .command => "command"
  | .event => "event"
  | .exception => "exception"
  | .view => "view"

/-- elementPrefixes: YAML keys to element types. -/
def elementPrefixes : String → Option ElementType
  | "t" => some .trigger
  | "trg" => some .trigger
  | "trigger" => some .trigger
  | "c" => some .command
  | "cmd" => some .command
  | "command" => some .command
  | "e" => some .event
  | "evt" => some .event
  | "event" => some .event
  | "x" => some .exception
  | "err" => some .exception
  | "exception" => some .exception
  | "v" => some .view
  | "view" => some .view
  | _ => none

/-- One props entry (ast.PropEntry), source order preserved.  The generic
decoding of the value into interface-typed data is external; the value node
is kept as decoded payload. -/
structure PropEntry where
  key : String
  value : Node

/-- ast.Element. -/
structure Element where
  type : ElementType
  name : String
  swimlane : String
  props : List PropEntry
  line : Nat
  col : Nat

/-- ast.Element.ParseSwimlane: split Name at the first '/' into Swimlane and
Name; leave the element untouched when no '/' occurs. -/
def parseSwimlaneE (e : Element) : Element :=
  match splitSwim e.name.data with
  | none => e
  | some (a, b) => { e with swimlane := ⟨a⟩, name := ⟨b⟩ }

/-- ast.Test. -/
structure Test where
  name : String
  given : List Element
  whenSec : List Element
  thenSec : List Element
  hasGiven : Bool
  hasWhen : Bool
  hasThen : Bool

/-- ast.Slice.  Tests are an association list modelling the Go map (with its
insertion order, which the repository records for rendering). -/
structure Slice where
  name : String
  elements : List Element
  tests : List (String × Test)

/-- Association-list model of a Go map from strings: lookup finds the unique
binding, insert replaces an existing binding in place or appends. -/
def lookupStr {α : Type} : List (String × α) → String → Option α
  | [], _ => none
  | (k, v) :: rest, n => if k = n then some v else lookupStr rest n

/-- Go map assignment m[k] = v. -/
def mapInsert {α : Type} (m : List (String × α)) (k : String) (v : α) : List (String × α) :=
  match m with
  | [] => [(k, v)]
  | (k0, v0) :: rest => if k0 = k then (k, v) :: rest else (k0, v0) :: mapInsert rest k v

/-- ast.SubDoc. -/
structure SubDoc where
  slices : List (String × Slice)
  sliceOrder : List String

/-- ast.Document.  RawSource is the byte list of the original input. -/
structure Document where
  slices : List (String × Slice)
  subDocs : List SubDoc
  rawSource : List Nat

/-- Errors of the grammar validator, one constructor per fmt.Errorf site,
carrying exactly the data the Go message formats (IO and decoder errors
belong to external collaborators and do not occur here). -/
inductive PErr where
  | expectedMappingAtRoot (k : Kind)
  | unknownTopLevelKey (key : String) (line : Nat)
  | slicesMustBeMapping (line : Nat)
  | sliceWrap (name : String) (e : PErr)
  | sliceMinElements (line : Nat)
  | stepsWrap (e : PErr)
  | stepsMinElements (line : Nat)
  | testsWrap (e : PErr)
  | unknownSliceKey (key : String) (line : Nat)
  | missingSteps (line : Nat)
  | sliceKindErr (line : Nat)
  | testsMustBeMapping (line : Nat)
  | testWrap (name : String) (e : PErr)
  | testMustBeMapping (line : Nat)
  | unknownTestKey (key : String) (line : Nat)
  | sectionWrap (sec : String) (e : PErr)
  | typeNotAllowed (sec : String) (t : ElementType) (line : Nat)
  | expectedSequence (line : Nat)
  | elementMustBeMapping (line : Nat)
  | propsWrap (line : Nat) (e : PErr)
  | multipleTypeKeys (line : Nat)
  | elementNoName (t : ElementType) (line : Nat)
  | nameTrailingSlash (line : Nat)
  | emptyNameAfterSwimlane (t : ElementType) (line : Nat)
  | unknownKey (key : String) (line : Nat)
  | missingType (line : Nat)
  | propsMustBeMapping (line : Nat)
deriving DecidableEq, Repr

/-- parseProps: the props value must be a mapping; entries are decoded in
source order (the generic value decoding cannot fail on the acyclic decoded
tree, so its error path is dropped). -/
def parseProps (node : Node) : Except PErr (List PropEntry) :=
  match node with
  | .mapping pairs _ _ => .ok (pairs.map (fun p => ⟨nodeValue p.1, p.2⟩))
  | n => .error (.propsMustBeMapping (nodeLine n))

/-- The type-key part of the parseElement loop body: trim the scalar value
into the working name, reject an empty name and a trailing slash, extract
the swimlane, trim both parts, and reject an empty name next to a non-empty
swimlane. -/
def applyTypeKey (elem : Element) (elemType : ElementType) (keyLine : Nat) (v : String) :
    Except PErr Element :=
  let name0 := trimSpace v
  if name0 = "" then .error (.elementNoName elemType keyLine)
  else if hasSuffixSlash name0 then .error (.nameTrailingSlash keyLine)
  else
    let e1 := parseSwimlaneE { elem with type := elemType, name := name0 }
    let e2 := { e1 with swimlane := trimSpace e1.swimlane, name := trimSpace e1.name }
    if e2.swimlane ≠ "" ∧ e2.name = "" then
      .error (.emptyNameAfterSwimlane elemType keyLine)
    else .ok e2

/-- Loop body of parseElement over the element mapping's key/value entries,
threading the found-type flag and the element under construction. -/
def parseElemEntries (mline : Nat) (entries : List (Node × Node))
    (foundType : Bool) (elem : Element) : Except PErr (Bool × Element) :=
  match entries with
  | [] => .ok (foundType, elem)
  | (keyNode, valueNode) :: rest =>
    let key := nodeValue keyNode
    if key = "props" then
      match parseProps valueNode with
      | .error e => .error (.propsWrap (nodeLine valueNode) e)
      | .ok props => parseElemEntries mline rest foundType { elem with props := props }
    else
      match elementPrefixes key with
      | some elemType =>
        if foundType then .error (.multipleTypeKeys mline)
        else
          match applyTypeKey elem elemType (nodeLine keyNode) (nodeValue valueNode) with
          | .error e => .error e
          | .ok e2 => parseElemEntries mline rest true e2
      | none => .error (.unknownKey key (nodeLine keyNode))

/-- parseElement: resolve aliases, require a mapping, process the entries,
and require exactly one type key.  The initial element is the Go zero value
(type trigger, empty names). -/
def parseElement (node : Node) : Except PErr Element :=
  match resolveAlias node with
  | .mapping pairs line col =>
    match parseElemEntries line pairs false
        { type := .trigger, name := "", swimlane := "", props := [], line := line, col := col } with
    | .error e => .error e
    | .ok (true, elem) => .ok elem
    | .ok (false, _) => .error (.missingType line)
  | n => .error (.elementMustBeMapping (nodeLine n))

/-- Loop of parseElementList over the sequence items. -/
def parseElems : List Node → Except PErr (List Element)
  | [] => .ok []
  | item :: rest =>
    match parseElement item with
    | .error e => .error e
    | .ok elem =>
      match parseElems rest with
      | .error e => .error e
      | .ok elems => .ok (elem :: elems)

/-- parseElementList: the node must be a sequence of element mappings. -/
def parseElementList (node : Node) : Except PErr (List Element) :=
  match node with
  | .sequence items _ _ => parseElems items
  | n => .error (.expectedSequence (nodeLine n))

/-- The allowed-type set for a test's given section. -/
def allowedGiven (t : ElementType) : Bool :=
  t == .event || t == .view

/-- The allowed-type set for a test's when section. -/
def allowedWhen (t : ElementType) : Bool :=
  t == .command

/-- The allowed-type set for a test's then section. -/
def allowedThen (t : ElementType) : Bool :=
  t == .event || t == .view || t == .exception

/-- parseTestSection: null yields an empty section; otherwise parse the
element list and reject the first element whose type is outside the allowed
set, naming the section. -/
def parseTestSection (sec : String) (node : Node) (allowed : ElementType → Bool) :
    Except PErr (List Element) :=
  if isNullNode node then .ok []
  else
    match parseElementList node with
    | .error e => .error (.sectionWrap sec e)
    | .ok elements =>
      match elements.find? (fun e => !allowed e.type) with
      | some e => .error (.typeNotAllowed sec e.type e.line)
      | none => .ok elements

/-- Loop body of parseTest over the test mapping's entries. -/
def parseTestEntries (entries : List (Node × Node)) (test : Test) : Except PErr Test :=
  match entries with
  | [] => .ok test
  | (keyNode, valueNode) :: rest =>
    match nodeValue keyNode with
    | "given" =>
      match parseTestSection "given" valueNode allowedGiven with
      | .error e => .error e
      | .ok elems => parseTestEntries rest { test with hasGiven := true, given := elems }
    | "when" =>
      match parseTestSection "when" valueNode allowedWhen with
      | .error e => .error e
      | .ok elems => parseTestEntries rest { test with hasWhen := true, whenSec := elems }
    | "then" =>
      match parseTestSection "then" valueNode allowedThen with
      | .error e => .error e
      | .ok elems => parseTestEntries rest { test with hasThen := true, thenSec := elems }
    | key => .error (.unknownTestKey key (nodeLine keyNode))

/-- parseTest: null is an empty test; otherwise a mapping with keys given,
when, then. -/
def parseTest (name : String) (node : Node) : Except PErr Test :=
  if isNullNode node then
    .ok { name := name, given := [], whenSec := [], thenSec := [],
          hasGiven := false, hasWhen := false, hasThen := false }
  else
    match node with
    | .mapping pairs _ _ =>
      parseTestEntries pairs
        { name := name, given := [], whenSec := [], thenSec := [],
          hasGiven := false, hasWhen := false, hasThen := false }
    | n => .error (.testMustBeMapping (nodeLine n))

/-- Loop of parseTests over the tests mapping's entries. -/
def parseTestsEntries (entries : List (Node × Node)) (tests : List (String × Test)) :
    Except PErr (List (String × Test)) :=
  match entries with
  | [] => .ok tests
  | (keyNode, valueNode) :: rest =>
    let testName := nodeValue keyNode
    match parseTest testName valueNode with
    | .error e => .error (.testWrap testName e)
    | .ok test => parseTestsEntries rest (mapInsert tests testName test)

/-- parseTests: null yields no tests; otherwise a mapping from test name to
test definition. -/
def parseTests (node : Node) : Except PErr (List (String × Test)) :=
  if isNullNode node then .ok []
  else
    match node with
    | .mapping pairs _ _ => parseTestsEntries pairs []
    | n => .error (.testsMustBeMapping (nodeLine n))

/-- State of the extended-form slice loop: elements distinguish the Go nil
slice (steps not seen yet) from a present, possibly empty list. -/
structure SliceState where
  elementsOpt : Option (List Element)
  tests : List (String × Test)

/-- Loop body of parseSlice over an extended-form mapping's entries. -/
def parseSliceEntries (entries : List (Node × Node)) (st : SliceState) :
    Except PErr SliceState :=
  match entries with
  | [] => .ok st
  | (keyNode, valueNode) :: rest =>
    match nodeValue keyNode with
    | "steps" =>
      if isNullNode valueNode then
        parseSliceEntries rest { st with elementsOpt := some [] }
      else
        match parseElementList valueNode with
        | .error e => .error (.stepsWrap e)
        | .ok elements =>
          if elements.length = 0 then .error (.stepsMinElements (nodeLine valueNode))
          else parseSliceEntries rest { st with elementsOpt := some elements }
    | "tests" =>
      match parseTests valueNode with
      | .error e => .error (.testsWrap e)
      | .ok tests => parseSliceEntries rest { st with tests := tests }
    | key => .error (.unknownSliceKey key (nodeLine keyNode))

/-- parseSlice: null is a placeholder slice; a sequence is the direct form
(must be non-empty); a mapping is the extended form with steps and tests. -/
def parseSlice (name : String) (node : Node) : Except PErr Slice :=
  if isNullNode node then .ok { name := name, elements := [], tests := [] }
  else
    match node with
    | .sequence _ line _ =>
      match parseElementList node with
      | .error e => .error e
      | .ok elements =>
        if elements.length = 0 then .error (.sliceMinElements line)
        else .ok { name := name, elements := elements, tests := [] }
    | .mapping pairs line _ =>
      match parseSliceEntries pairs { elementsOpt := none, tests := [] } with
      | .error e => .error e
      | .ok st =>
        match st.elementsOpt with
        | none => .error (.missingSteps line)
        | some elements => .ok { name := name, elements := elements, tests := st.tests }
    | n => .error (.sliceKindErr (nodeLine n))

/-- Loop of parseSlices over the slices mapping's entries, building the
local name-to-slice map and the insertion-ordered name list. -/
def parseSlicesEntries (entries : List (Node × Node))
    (slices : List (String × Slice)) (order : List String) :
    Except PErr (List (String × Slice) × List String) :=
  match entries with
  | [] => .ok (slices, order)
  | (keyNode, valueNode) :: rest =>
    let sliceName := nodeValue keyNode
    match parseSlice sliceName valueNode with
    | .error e => .error (.sliceWrap sliceName e)
    | .ok slice => parseSlicesEntries rest (mapInsert slices sliceName slice) (order ++ [sliceName])

/-- parseSlices: null yields no slices; otherwise a mapping from slice name
to slice definition. -/
def parseSlices (node : Node) : Except PErr (List (String × Slice) × List String) :=
  if isNullNode node then .ok ([], [])
  else
    match node with
    | .mapping pairs _ _ => parseSlicesEntries pairs [] []
    | n => .error (.slicesMustBeMapping (nodeLine n))

/-- Copy one validated slices batch into a map in order, as the merge loop
in parseDocument does (every order entry was inserted into the local map by
parseSlicesEntries, so the none branch is unreachable). -/
def mergeBatch (target : List (String × Slice)) (localMap : List (String × Slice))
    (order : List String) : List (String × Slice) :=
  match order with
  | [] => target
  | name :: rest =>
    match lookupStr localMap name with
    | some slice => mergeBatch (mapInsert target name slice) localMap rest
    | none => mergeBatch target localMap rest

/-- Loop body of parseDocument over the root mapping's entries, threading
the document-level merged map and the sub-document. -/
def parseDocEntries (entries : List (Node × Node))
    (docSlices : List (String × Slice)) (subDoc : SubDoc) :
    Except PErr (List (String × Slice) × SubDoc) :=
  match entries with
  | [] => .ok (docSlices, subDoc)
  | (keyNode, valueNode) :: rest =>
    match nodeValue keyNode with
    | "slices" =>
      match parseSlices valueNode with
      | .error e => .error e
      | .ok (slices, sliceOrder) =>
        parseDocEntries rest
          (mergeBatch docSlices slices sliceOrder)
          { slices := mergeBatch subDoc.slices slices sliceOrder, sliceOrder := sliceOrder }
    | key => .error (.unknownTopLevelKey key (nodeLine keyNode))

/-- parseDocument: a non-document or empty root contributes nothing; the
document content must be a mapping whose only recognized key is slices. -/
def parseDocument (root : Node) (docSlices : List (String × Slice)) :
    Except PErr (List (String × Slice) × SubDoc) :=
  match root with
  | .document items _ _ =>
    match items with
    | [] => .ok (docSlices, { slices := [], sliceOrder := [] })
    | docNode :: _ =>
      match docNode with
      | .mapping pairs _ _ => parseDocEntries pairs docSlices { slices := [], sliceOrder := [] }
      | n => .error (.expectedMappingAtRoot (kindOf n))
  | _ => .ok (docSlices, { slices := [], sliceOrder := [] })

/-- Loop of Parse over the decoded physical documents. -/
def parseDocs (roots : List Node) (docSlices : List (String × Slice))
    (subDocs : List SubDoc) : Except PErr (List (String × Slice) × List SubDoc) :=
  match roots with
  | [] => .ok (docSlices, subDocs)
  | root :: rest =>
    match parseDocument root docSlices with
    | .error e => .error e
    | .ok (docSlices2, subDoc) => parseDocs rest docSlices2 (subDocs ++ [subDoc])

/-- Parse: fold the decoded documents into one merged Document carrying the
raw source bytes.  Reading and YAML decoding are external; their error paths
(reading input, yaml parse error) stay with the collaborators. -/
def parse (raw : List Nat) (roots : List Node) : Except PErr Document :=
  match parseDocs roots [] [] with
  | .error e => .error e
  | .ok (slices, subDocs) => .ok { slices := slices, subDocs := subDocs, rawSource := raw }

/-! ### Layout engine (internal/diagram) -/

/-- Slice used when a name from SliceOrder is looked up.  The Go code
dereferences the map entry directly and would fault on a name missing from
the map; layout theorems therefore assume the well-formedness below. -/
def defaultSlice : Slice :=
  { name := "", elements := [], tests := [] }

/-- Map lookup sd.Slices[name] as used throughout the layout engine. -/
def getSlice (sd : SubDoc) (name : String) : Slice :=
  (lookupStr sd.slices name).getD defaultSlice

/-- Every name in SliceOrder has an entry in the slices map (the contract
the layout engine relies on). -/
def wfSubDoc (sd : SubDoc) : Prop :=
  ∀ n ∈ sd.sliceOrder, (lookupStr sd.slices n).isSome

/-- layout: precomputed layout info for a subdocument. -/
structure Layout where
  sliceOrder : List String
  sliceWidths : List (String × Nat)
  totalColumns : Nat
  sliceStartCol : List (String × Nat)
  triggerLanes : List String
  eventLanes : List String
  hasSwimlanes : Bool
  hasMainRow : Bool

/-- Column width of one slice: its element count with a floor of 1. -/
def sliceWidth (sd : SubDoc) (name : String) : Nat :=
  let w := (getSlice sd name).elements.length
  if w = 0 then 1 else w

/-- totalWidth accumulated over SliceOrder. -/
def totalWidthOf (sd : SubDoc) : Nat :=
  (sd.sliceOrder.map (sliceWidth sd)).sum

/-- State of the swimlane-collection scan in computeLayout. -/
structure LaneState where
  hasSwimlanes : Bool
  triggerLanes : List String
  eventLanes : List String
  hasMainRow : Bool

/-- One element of the swimlane scan.  The Go code pairs each lane list with
a seen-set; the seen-set always holds exactly the lanes already in the list,
so membership in the accumulated list is the same test. -/
def laneStep (st : LaneState) (e : Element) : LaneState :=
  let st := if e.swimlane ≠ "" then { st with hasSwimlanes := true } else st
  match e.type with
  | .trigger =>
    if st.triggerLanes.contains e.swimlane then st
    else { st with triggerLanes := st.triggerLanes ++ [e.swimlane] }
  | .command => { st with hasMainRow := true }
  | .view => { st with hasMainRow := true }
  | .event =>
    if st.eventLanes.contains e.swimlane then st
    else { st with eventLanes := st.eventLanes ++ [e.swimlane] }
  | .exception =>
    if st.eventLanes.contains e.swimlane then st
    else { st with eventLanes := st.eventLanes ++ [e.swimlane] }

/-- The swimlane scan over every element of every slice in order. -/
def laneScan (sd : SubDoc) : LaneState :=
  sd.sliceOrder.foldl (fun st n => (getSlice sd n).elements.foldl laneStep st)
    { hasSwimlanes := false, triggerLanes := [], eventLanes := [], hasMainRow := false }

/-- Column-assignment loop: give each slice in order the running column and
advance it by the slice's width (missing width keys read as 0, the Go map
zero value). -/
def assignCols (widths : List (String × Nat)) (m : List (String × Nat)) (col : Nat) :
    List String → List (String × Nat)
  | [] => m
  | n :: rest => assignCols widths (mapInsert m n col) (col + ((lookupStr widths n).getD 0)) rest

/-- computeLayout. -/
def computeLayout (sd : SubDoc) : Layout :=
  let widths := sd.sliceOrder.foldl (fun m n => mapInsert m n (sliceWidth sd n)) []
  let totalWidth := totalWidthOf sd
  let st := laneScan sd
  if st.hasSwimlanes then
    { sliceOrder := sd.sliceOrder, sliceWidths := widths,
      totalColumns := 1 + totalWidth,
      sliceStartCol := assignCols widths [] 2 sd.sliceOrder,
      triggerLanes := st.triggerLanes, eventLanes := st.eventLanes,
      hasSwimlanes := st.hasSwimlanes, hasMainRow := st.hasMainRow }
  else
    { sliceOrder := sd.sliceOrder, sliceWidths := widths,
      totalColumns := totalWidth,
      sliceStartCol := assignCols widths [] 1 sd.sliceOrder,
      triggerLanes := st.triggerLanes, eventLanes := st.eventLanes,
      hasSwimlanes := st.hasSwimlanes, hasMainRow := st.hasMainRow }

/-! ### Template data (internal/diagram) -/

/-- cssOverride. -/
structure CssOverride where
  key : String
  value : String

/-- propData; the generic value payload stays as its decoded node. -/
structure PropData where
  key : String
  value : Node

/-- elementData. -/
structure ElementData where
  cssClass : String
  name : String
  gridCol : Nat
  props : List PropData

/-- testData. -/
structure TestData where
  name : String
  hasGiven : Bool
  given : List ElementData
  hasWhen : Bool
  whenSec : List ElementData
  hasThen : Bool
  thenSec : List ElementData

/-- rowSliceData. -/
structure RowSliceData where
  elements : List ElementData
  tests : List TestData

/-- rowData (rowClass is the Go field Class). -/
structure RowData where
  rowClass : String
  hasSwimlanes : Bool
  swimlane : String
  slices : List RowSliceData

/-- sliceColumnData. -/
structure SliceColumnData where
  childIndex : Nat
  startCol : Nat
  span : Nat

/-- sliceNameData. -/
structure SliceNameData where
  displayName : String

/-- documentData. -/
structure DocumentData where
  id : String
  totalColumns : Nat
  hasSwimlanes : Bool
  sliceColumns : List SliceColumnData
  sliceNames : List SliceNameData
  rows : List RowData

/-- diagramData. -/
structure DiagramData where
  overrides : List CssOverride
  documents : List DocumentData

/-- Generator (CSS overrides modelled as a key-unique association list). -/
structure Generator where
  cssOverrides : List (String × String)

/-- buildProps. -/
def buildProps (props : List PropEntry) : List PropData :=
  props.map (fun p => { key := p.key, value := p.value })

/-- The elementData built for one element at its grid column. -/
def mkElementData (e : Element) (gridCol : Nat) : ElementData :=
  { cssClass := "emlang-" ++ elementTypeString e.type, name := e.name,
    gridCol := gridCol, props := buildProps e.props }

/-- buildElementRow.  Go computes each element's grid column with
elementIndex, a pointer-equality scan of the element's own slice; every
parsed element is a distinct allocation, so the scan returns the element's
own 1-based position, modelled here by enumerating the element list. -/
def buildElementRow (l : Layout) (sd : SubDoc) (cls : String) (lane : String)
    (matchF : Element → Bool) : RowData :=
  { rowClass := cls, hasSwimlanes := l.hasSwimlanes, swimlane := lane,
    slices := l.sliceOrder.map (fun name =>
      { elements := (getSlice sd name).elements.enum.filterMap (fun p =>
          if matchF p.2 then some (mkElementData p.2 (p.1 + 1)) else none),
        tests := [] }) }

/-- hasTests: some slice has at least one test. -/
def hasTests (sd : SubDoc) : Bool :=
  sd.sliceOrder.any (fun n => (getSlice sd n).tests.length > 0)

/-- buildTestElements (the grid column stays the Go zero value). -/
def buildTestElements (elems : List Element) : List ElementData :=
  elems.map (fun e =>
    { cssClass := "emlang-" ++ elementTypeString e.type, name := e.name,
      gridCol := 0, props := buildProps e.props })

/-- buildTestsRow.  The repository iterates slice.TestOrder, the insertion
order of test names; the tests association list records exactly that
order. -/
def buildTestsRow (l : Layout) (sd : SubDoc) : RowData :=
  { rowClass := "emlang-row-tests", hasSwimlanes := l.hasSwimlanes, swimlane := "",
    slices := l.sliceOrder.map (fun name =>
      { elements := [],
        tests := (getSlice sd name).tests.map (fun p =>
          { name := p.2.name,
            hasGiven := p.2.hasGiven, given := buildTestElements p.2.given,
            hasWhen := p.2.hasWhen, whenSec := buildTestElements p.2.whenSec,
            hasThen := p.2.hasThen, thenSec := buildTestElements p.2.thenSec }) }) }

/-! ### Content hash and document identity -/

/-- Reduction to a 32-bit word. -/
def w32 (n : Nat) : Nat :=
  n % 4294967296

/-- 32-bit left rotation. -/
def rotl (k n : Nat) : Nat :=
  w32 ((n <<< k) ||| (n >>> (32 - k)))

/-- SHA-1 round constants. -/
def sha1K (i : Nat) : Nat :=
  if i < 20 then 0x5A827999
  else if i < 40 then 0x6ED9EBA1
  else if i < 60 then 0x8F1BBCDC
  else 0xCA62C1D6

/-- SHA-1 round functions (bitwise complement taken within 32 bits). -/
def sha1F (i b c d : Nat) : Nat :=
  if i < 20 then (b &&& c) ||| ((b ^^^ 0xFFFFFFFF) &&& d)
  else if i < 40 then b ^^^ c ^^^ d
  else if i < 60 then (b &&& c) ||| (b &&& d) ||| (c &&& d)
  else b ^^^ c ^^^ d

/-- SHA-1 padding: a 0x80 byte, zeros to 56 mod 64, and the bit length as
eight big-endian bytes. -/
def sha1pad (msg : List Nat) : List Nat :=
  let ml := msg.length
  let zeros := (64 + 56 - (ml + 1) % 64) % 64
  msg ++ [128] ++ List.replicate zeros 0 ++
    (List.range 8).map (fun i => ((8 * ml) >>> (8 * (7 - i))) % 256)

/-- Split a byte list into 64-byte chunks. -/
def chunks64 (l : List Nat) : List (List Nat) :=
  if h : l = [] then []
  else l.take 64 :: chunks64 (l.drop 64)
termination_by l.length
decreasing_by
  simp only [List.length_drop]
  exact Nat.sub_lt (List.length_pos.mpr h) (by decide)

/-- The sixteen big-endian 32-bit words of one chunk. -/
def chunkWords (chunk : List Nat) : List Nat :=
  (List.range 16).map (fun i =>
    (chunk.getD (4 * i) 0) * 16777216 + (chunk.getD (4 * i + 1) 0) * 65536 +
    (chunk.getD (4 * i + 2) 0) * 256 + chunk.getD (4 * i + 3) 0)

/-- Message-schedule extension by k further words. -/
def extendW (ws : List Nat) : Nat → List Nat
  | 0 => ws
  | k + 1 =>
    let ws2 := extendW ws k
    ws2 ++ [rotl 1 ((ws2.getD (ws2.length - 3) 0) ^^^ (ws2.getD (ws2.length - 8) 0) ^^^
      (ws2.getD (ws2.length - 14) 0) ^^^ (ws2.getD (ws2.length - 16) 0))]

/-- One SHA-1 round. -/
def roundStep (st : Nat × Nat × Nat × Nat × Nat) (p : Nat × Nat) :
    Nat × Nat × Nat × Nat × Nat :=
  let a := st.1
  let b := st.2.1
  let c := st.2.2.1
  let d := st.2.2.2.1
  let e := st.2.2.2.2
  let temp := w32 (rotl 5 a + sha1F p.1 b c d + e + sha1K p.1 + p.2)
  (temp, a, rotl 30 b, c, d)

/-- SHA-1 compression of one chunk. -/
def processChunk (h : Nat × Nat × Nat × Nat × Nat) (chunk : List Nat) :
    Nat × Nat × Nat × Nat × Nat :=
  let ws := extendW (chunkWords chunk) 64
  let r := ws.enum.foldl roundStep h
  (w32 (h.1 + r.1), w32 (h.2.1 + r.2.1), w32 (h.2.2.1 + r.2.2.1),
   w32 (h.2.2.2.1 + r.2.2.2.1), w32 (h.2.2.2.2 + r.2.2.2.2))

/-- The five 32-bit state words of the SHA-1 digest of a byte list. -/
def sha1Words (msg : List Nat) : Nat × Nat × Nat × Nat × Nat :=
  (chunks64 (sha1pad msg)).foldl processChunk
    (0x67452301, 0xEFCDAB89, 0x98BADCFE, 0x10325476, 0xC3D2E1F0)

/-- Lowercase hex digits. -/
def hexDigit (n : Nat) : Char :=
  if n < 10 then Char.ofNat (48 + n) else Char.ofNat (87 + n)

/-- Fixed-width big-endian hex rendering. -/
def hexFixed : Nat → Nat → List Char
  | 0, _ => []
  | k + 1, n => hexFixed k (n / 16) ++ [hexDigit (n % 16)]

/-- contentHash: the first 12 hex characters of the SHA-1 digest (the hex
of the 20 digest bytes is the concatenated fixed-width hex of the five
state words). -/
def contentHash (raw : List Nat) : String :=
  let h := sha1Words raw
  ⟨(hexFixed 8 h.1 ++ hexFixed 8 h.2.1 ++ hexFixed 8 h.2.2.1 ++
    hexFixed 8 h.2.2.2.1 ++ hexFixed 8 h.2.2.2.2).take 12⟩

/-- Decimal rendering of a natural number (fmt %d). -/
def natDec (n : Nat) : String :=
  if n = 0 then "0" else ⟨(Nat.digits 10 n).reverse.map Nat.digitChar⟩

/-- documentID: "emlang-document-" + hash + "-" + index. -/
def documentID (hash : String) (idx : Nat) : String :=
  "emlang-document-" ++ hash ++ "-" ++ natDec idx

/-- buildDocumentData. -/
def buildDocumentData (hash : String) (idx : Nat) (sd : SubDoc) : DocumentData :=
  let l := computeLayout sd
  let cols :=
    if l.hasSwimlanes then
      { childIndex := 1, startCol := 1, span := 1 } ::
        sd.sliceOrder.enum.map (fun p =>
          { childIndex := p.1 + 2, startCol := (lookupStr l.sliceStartCol p.2).getD 0,
            span := (lookupStr l.sliceWidths p.2).getD 0 })
    else
      sd.sliceOrder.enum.map (fun p =>
        { childIndex := p.1 + 1, startCol := (lookupStr l.sliceStartCol p.2).getD 0,
          span := (lookupStr l.sliceWidths p.2).getD 0 })
  let names := l.sliceOrder.map (fun name =>
    { displayName := if name = "" then "(anonymous)" else name })
  let rows :=
    (l.triggerLanes.map (fun lane =>
      buildElementRow l sd "emlang-row-triggers" lane
        (fun e => e.type == .trigger && e.swimlane == lane))) ++
    (if l.hasMainRow then
      [buildElementRow l sd "emlang-row-main" ""
        (fun e => e.type == .command || e.type == .view)]
     else []) ++
    (l.eventLanes.map (fun lane =>
      buildElementRow l sd "emlang-row-events" lane
        (fun e => (e.type == .event || e.type == .exception) && e.swimlane == lane))) ++
    (if hasTests sd then [buildTestsRow l sd] else [])
  { id := documentID hash idx, totalColumns := l.totalColumns,
    hasSwimlanes := l.hasSwimlanes, sliceColumns := cols, sliceNames := names,
    rows := rows }

/-- Insertion of a string into a sorted list (sort.Strings model). -/
def insertSorted (x : String) : List String → List String
  | [] => [x]
  | y :: rest => if decide (x < y) then x :: y :: rest else y :: insertSorted x rest

/-- Sorting of the override keys. -/
def sortStrings (l : List String) : List String :=
  l.foldr insertSorted []

/-- buildDiagramData: the content hash of the whole raw source tags every
per-document geometry together with the document's 0-based index. -/
def buildDiagramData (g : Generator) (doc : Document) : DiagramData :=
  let hash := contentHash doc.rawSource
  let overrides :=
    if g.cssOverrides.length > 0 then
      (sortStrings (g.cssOverrides.map Prod.fst)).map (fun k =>
        { key := k, value := (lookupStr g.cssOverrides k).getD "" })
    else []
  { overrides := overrides,
    documents := doc.subDocs.enum.map (fun p => buildDocumentData hash p.1 p.2) }

/-! ### List and trimming lemmas -/

theorem dropWhile_eq_nil_all {α : Type} {p : α → Bool} {l : List α}
    (h : l.dropWhile p = []) : ∀ a ∈ l, p a = true := by
  induction l with
  | nil => intro a ha; cases ha
  | cons x xs ih =>
    intro a ha
    by_cases hx : p x = true
    · simp only [List.dropWhile_cons, hx, if_true] at h
      rcases List.mem_cons.mp ha with rfl | ha
      · exact hx
      · exact ih h a ha
    · simp only [Bool.not_eq_true] at hx
      simp [List.dropWhile_cons, hx] at h

theorem head_dropWhile_false {α : Type} {p : α → Bool} {l rest : List α} {c : α}
    (h : l.dropWhile p = c :: rest) : p c = false := by
  induction l with
  | nil => simp at h
  | cons x xs ih =>
    by_cases hx : p x = true
    · simp only [List.dropWhile_cons, hx, if_true] at h
      exact ih h
    · simp only [Bool.not_eq_true] at hx
      simp only [List.dropWhile_cons, hx, Bool.false_eq_true, if_false] at h
      injection h with h1 h2
      exact h1 ▸ hx

theorem dropWhile_ne_nil_of_tail {α : Type} {p : α → Bool} {l : List α}
    (h : l.dropWhile p ≠ []) : l ≠ [] := by
  intro hn
  rw [hn] at h
  simp at h

theorem getLast?_dropWhile {α : Type} {p : α → Bool} {l : List α}
    (h : l.dropWhile p ≠ []) : (l.dropWhile p).getLast? = l.getLast? := by
  induction l with
  | nil => simp at h
  | cons x xs ih =>
    by_cases hx : p x = true
    · simp only [List.dropWhile_cons, hx, if_true] at h ⊢
      obtain ⟨c, hc⟩ := Option.isSome_iff_exists.mp
        (List.getLast?_isSome.mpr (dropWhile_ne_nil_of_tail h))
      rw [ih h, List.getLast?_cons, hc]
      simp
    · simp only [Bool.not_eq_true] at hx
      simp [List.dropWhile_cons, hx]

theorem getLast?_append_right {α : Type} {a b : List α} (h : b ≠ []) :
    (a ++ b).getLast? = b.getLast? := by
  obtain ⟨c, hc⟩ := Option.isSome_iff_exists.mp (List.getLast?_isSome.mpr h)
  rw [List.getLast?_append, hc]
  simp

theorem trim_last_not_space {l : List Char} (h : trimSpaceL l ≠ []) :
    ∃ c, (trimSpaceL l).getLast? = some c ∧ goIsSpace c = false := by
  unfold trimSpaceL at h ⊢
  set m := ((l.dropWhile goIsSpace).reverse).dropWhile goIsSpace with hm
  have hmne : m ≠ [] := by
    intro hn
    rw [hn] at h
    simp at h
  cases hc : m with
  | nil => exact absurd hc hmne
  | cons c rest =>
    refine ⟨c, ?_, head_dropWhile_false (hm ▸ hc)⟩
    simp [hc]

theorem trim_ne_nil_of_last {l : List Char} {c : Char}
    (hc : l.getLast? = some c) (hcs : goIsSpace c = false) : trimSpaceL l ≠ [] := by
  unfold trimSpaceL
  have hd : l.dropWhile goIsSpace ≠ [] := by
    intro hn
    have hall := dropWhile_eq_nil_all hn
    have hmem : c ∈ l := List.mem_of_mem_getLast? (Option.mem_def.mpr hc)
    rw [hall c hmem] at hcs
    cases hcs
  have hdl : (l.dropWhile goIsSpace).getLast? = some c := (getLast?_dropWhile hd).trans hc
  have hrev : (l.dropWhile goIsSpace).reverse.head? = some c := by
    rw [List.head?_reverse]
    exact hdl
  cases hr : (l.dropWhile goIsSpace).reverse with
  | nil =>
    rw [hr] at hrev
    cases hrev
  | cons x t =>
    rw [hr] at hrev
    have hx : x = c := by
      simp at hrev
      exact hrev
    subst hx
    rw [List.dropWhile_cons, hcs]
    simp

theorem splitSwim_some {l a b : List Char} (h : splitSwim l = some (a, b)) :
    l = a ++ '/' :: b := by
  induction l generalizing a b with
  | nil => simp [splitSwim] at h
  | cons c rest ih =>
    by_cases hc : c = '/'
    · subst hc
      simp [splitSwim] at h
      rw [h.1, h.2]
      simp
    · rw [splitSwim, if_neg hc] at h
      cases hs : splitSwim rest with
      | none => rw [hs] at h; cases h
      | some p =>
        rw [hs] at h
        cases p with
        | mk a2 b2 =>
          simp at h
          rcases h with ⟨h1, h2⟩
          rw [← h1, ← h2]
          simp [ih hs]

theorem splitSwim_none {l : List Char} (h : splitSwim l = none) : '/' ∉ l := by
  induction l with
  | nil => simp
  | cons c rest ih =>
    by_cases hc : c = '/'
    · subst hc
      simp [splitSwim] at h
    · rw [splitSwim, if_neg hc] at h
      cases hs : splitSwim rest with
      | none =>
        intro hmem
        rcases List.mem_cons.mp hmem with heq | hmem2
        · exact hc heq.symm
        · exact ih hs hmem2
      | some p => rw [hs] at h; cases h

theorem str_mk_eq_empty {l : List Char} : (⟨l⟩ : String) = "" ↔ l = [] := by
  constructor
  · intro h
    have := congrArg String.data h
    simpa using this
  · intro h
    subst h
    rfl

/-- After the trailing-slash check, the remainder after the first '/' of a
trimmed non-empty name trims to a non-empty string: its last character is
the name's last character, which is neither a space nor '/'. -/
theorem remainder_trim_ne_nil {w : List Char} {a b : List Char}
    (hlast : w.getLast? ≠ some '/')
    (hns : ∃ c, w.getLast? = some c ∧ goIsSpace c = false)
    (hsplit : splitSwim w = some (a, b)) : trimSpaceL b ≠ [] := by
  obtain ⟨c, hc, hcs⟩ := hns
  have hw : w = a ++ '/' :: b := splitSwim_some hsplit
  have hbne : b ≠ [] := by
    intro hn
    subst hn
    rw [hw] at hc hlast
    rw [show a ++ ['/'] = a ++ ['/'] from rfl, List.getLast?_concat] at hlast
    exact hlast rfl
  have hbc : b.getLast? = some c := by
    rw [hw] at hc
    rw [getLast?_append_right (by simp)] at hc
    rw [List.getLast?_cons] at hc
    obtain ⟨d, hd⟩ := Option.isSome_iff_exists.mp (List.getLast?_isSome.mpr hbne)
    rw [hd] at hc
    simp at hc
    rw [hd, hc]
  exact trim_ne_nil_of_last hbc hcs

/-- The swimlane part of a working name: the prefix before the first '/',
empty when no '/' occurs (the claim's description of the split). -/
def swimPart (w : String) : String :=
  match splitSwim w.data with
  | none => ""
  | some (a, _) => ⟨a⟩

/-- The name part of a working name: the remainder after the first '/', or
the whole name when no '/' occurs. -/
def namePart (w : String) : String :=
  match splitSwim w.data with
  | none => w
  | some (_, b) => ⟨b⟩

theorem props_key_ne {key : String} {t : ElementType}
    (h : elementPrefixes key = some t) : ¬ key = "props" := by
  intro hEq
  subst hEq
  have hp : elementPrefixes "props" = none := rfl
  rw [hp] at h
  cases h

theorem hasSuffixSlash_false {s : String} (h : hasSuffixSlash s = false) :
    s.data.getLast? ≠ some '/' := by
  intro heq
  unfold hasSuffixSlash at h
  rw [heq] at h
  simp at h

/-- parseElement on a one-entry mapping whose key is a type alias and whose
trimmed value is non-empty without a trailing slash: the element's swimlane
and name are the trimmed parts around the first '/'. -/
theorem parseElement_single
    (ktag vtag key v : String) (kl kc vl vc line col : Nat) (t : ElementType)
    (hk : elementPrefixes key = some t)
    (hne : trimSpace v ≠ "") (hsl : hasSuffixSlash (trimSpace v) = false) :
    parseElement (.mapping [(.scalar ktag key kl kc, .scalar vtag v vl vc)] line col) =
      .ok { type := t, name := trimSpace (namePart (trimSpace v)),
            swimlane := trimSpace (swimPart (trimSpace v)), props := [],
            line := line, col := col } := by
  have hkp : ¬ key = "props" := props_key_ne hk
  have hwdata : trimSpaceL v.data ≠ [] := by
    intro hn
    exact hne (str_mk_eq_empty.mpr hn)
  obtain ⟨c, hc, hcs⟩ := trim_last_not_space hwdata
  have hlast : (trimSpaceL v.data).getLast? ≠ some '/' := hasSuffixSlash_false hsl
  have htrimnil : trimSpace "" = "" := rfl
  unfold parseElement
  simp only [resolveAlias]
  cases hs : splitSwim (trimSpaceL v.data) with
  | none =>
    have h1 : (⟨trimSpaceL []⟩ : String) = "" := rfl
    simp only [parseElemEntries, applyTypeKey, nodeValue, hkp, if_false, hk,
      Bool.false_eq_true, hne, hsl, parseSwimlaneE, swimPart, namePart]
    simp [hs, hne, hsl, htrimnil, trimSpace, h1]
  | some p =>
    cases p with
    | mk a b =>
      have hname : trimSpaceL b ≠ [] := remainder_trim_ne_nil hlast ⟨c, hc, hcs⟩ hs
      have hname2 : ¬ ((⟨trimSpaceL b⟩ : String) = "") := by
        intro hEq
        exact hname (str_mk_eq_empty.mp hEq)
      simp only [parseElemEntries, applyTypeKey, nodeValue, hkp, if_false, hk,
        Bool.false_eq_true, hne, hsl, parseSwimlaneE, swimPart, namePart]
      simp [hs, hne, hsl, hname2, trimSpace]

/-- C2: swimlane extraction.  For every element whose type-key value after
whitespace trimming is non-empty and does not end with '/', the name is
split at the first '/' (prefix to Swimlane, remainder to Name, both
trimmed); "Foo/Bar" gives Swimlane "Foo" and Name "Bar"; "Bar" gives
Swimlane ""; "/Bar" gives Swimlane "" and Name "Bar" without error; and
"Bar/" and "/" make parsing fail with the trailing-slash semantic error. -/
theorem claim_C2 :
    (∀ ktag vtag key v kl kc vl vc line col t, elementPrefixes key = some t →
       trimSpace v ≠ "" → hasSuffixSlash (trimSpace v) = false →
       parseElement (.mapping [(.scalar ktag key kl kc, .scalar vtag v vl vc)] line col) =
         .ok { type := t, name := trimSpace (namePart (trimSpace v)),
               swimlane := trimSpace (swimPart (trimSpace v)), props := [],
               line := line, col := col }) ∧
    parseElement (.mapping [(.scalar "!!str" "e" 2 5, .scalar "!!str" "Foo/Bar" 2 8)] 2 5) =
      .ok { type := .event, name := "Bar", swimlane := "Foo", props := [], line := 2, col := 5 } ∧
    parseElement (.mapping [(.scalar "!!str" "e" 2 5, .scalar "!!str" "Bar" 2 8)] 2 5) =
      .ok { type := .event, name := "Bar", swimlane := "", props := [], line := 2, col := 5 } ∧
    parseElement (.mapping [(.scalar "!!str" "e" 2 5, .scalar "!!str" "/Bar" 2 8)] 2 5) =
      .ok { type := .event, name := "Bar", swimlane := "", props := [], line := 2, col := 5 } ∧
    parseElement (.mapping [(.scalar "!!str" "e" 2 5, .scalar "!!str" "Bar/" 2 8)] 2 5) =
      .error (.nameTrailingSlash 2) ∧
    parseElement (.mapping [(.scalar "!!str" "e" 2 5, .scalar "!!str" "/" 2 8)] 2 5) =
      .error (.nameTrailingSlash 2) :=
  ⟨parseElement_single, rfl, rfl, rfl, rfl, rfl⟩

/-- Witness for C2: the general split law applied to the concrete trigger
name "Ops/Deploy". -/
theorem claim_C2_witness :
    parseElement (.mapping [(.scalar "!!str" "t" 3 1, .scalar "!!str" "Ops/Deploy" 3 4)] 3 1) =
      .ok { type := .trigger, name := trimSpace (namePart (trimSpace "Ops/Deploy")),
            swimlane := trimSpace (swimPart (trimSpace "Ops/Deploy")), props := [],
            line := 3, col := 1 } :=
  claim_C2.1 "!!str" "!!str" "t" "Ops/Deploy" 3 1 3 4 3 1 .trigger rfl (by decide) (by decide)

/-! ### C9: name non-emptiness after swimlane extraction -/

theorem str_data_mk (l : List Char) : (⟨l⟩ : String).data = l := rfl

theorem parseSwimlaneE_name (e : Element) : (parseSwimlaneE e).name = namePart e.name := by
  unfold parseSwimlaneE namePart
  cases hs : splitSwim e.name.data with
  | none => simp [hs]
  | some p => cases p with | mk a b => simp [hs]

/-- A trimmed, non-empty name without a trailing slash leaves a non-empty
trimmed remainder after the split at the first '/'. -/
theorem namePart_trim_ne_empty (v : String) (hne : trimSpace v ≠ "")
    (hsl : hasSuffixSlash (trimSpace v) = false) :
    trimSpace (namePart (trimSpace v)) ≠ "" := by
  have hwdata : trimSpaceL v.data ≠ [] := fun hn => hne (str_mk_eq_empty.mpr hn)
  obtain ⟨c, hc, hcs⟩ := trim_last_not_space hwdata
  have hlast : (trimSpaceL v.data).getLast? ≠ some '/' := hasSuffixSlash_false hsl
  unfold namePart
  cases hs : splitSwim (trimSpace v).data with
  | none =>
    have h2 : trimSpaceL (trimSpaceL v.data) ≠ [] := trim_ne_nil_of_last hc hcs
    intro hEq
    exact h2 (str_mk_eq_empty.mp hEq)
  | some p =>
    cases p with
    | mk a b =>
      have hs2 : splitSwim (trimSpaceL v.data) = some (a, b) := hs
      have hbne : trimSpaceL b ≠ [] := remainder_trim_ne_nil hlast ⟨c, hc, hcs⟩ hs2
      intro hEq
      exact hbne (str_mk_eq_empty.mp hEq)

/-- An element is good when a non-empty swimlane comes with a non-empty
name. -/
def goodElem (e : Element) : Prop :=
  e.swimlane ≠ "" → e.name ≠ ""

/-- All test sections contain only good elements. -/
def goodTest (t : Test) : Prop :=
  (∀ e ∈ t.given, goodElem e) ∧ (∀ e ∈ t.whenSec, goodElem e) ∧ (∀ e ∈ t.thenSec, goodElem e)

/-- All elements and tests of a slice are good. -/
def goodSlice (s : Slice) : Prop :=
  (∀ e ∈ s.elements, goodElem e) ∧ (∀ p ∈ s.tests, goodTest p.2)

/-- All slices of a sub-document are good. -/
def goodSubDoc (sd : SubDoc) : Prop :=
  ∀ p ∈ sd.slices, goodSlice p.2

/-- All slices and sub-documents of a document are good. -/
def goodDoc (d : Document) : Prop :=
  (∀ p ∈ d.slices, goodSlice p.2) ∧ ∀ sd ∈ d.subDocs, goodSubDoc sd

theorem applyTypeKey_no_empty_name (elem : Element) (t2 : ElementType) (kl : Nat)
    (v : String) (t : ElementType) (l : Nat) :
    applyTypeKey elem t2 kl v ≠ .error (.emptyNameAfterSwimlane t l) := by
  unfold applyTypeKey
  by_cases h0 : trimSpace v = ""
  · simp [h0]
  · by_cases h1 : hasSuffixSlash (trimSpace v) = true
    · simp [h0, h1]
    · have h1f : hasSuffixSlash (trimSpace v) = false := by
        revert h1
        cases hasSuffixSlash (trimSpace v) <;> simp
      have hname : trimSpace (parseSwimlaneE { elem with type := t2, name := trimSpace v }).name ≠ "" := by
        rw [parseSwimlaneE_name]
        exact namePart_trim_ne_empty v h0 h1f
      have hguard : ¬ (trimSpace (parseSwimlaneE { elem with type := t2, name := trimSpace v }).swimlane ≠ "" ∧ trimSpace (parseSwimlaneE { elem with type := t2, name := trimSpace v }).name = "") := by
        intro hand
        exact hname hand.2
      simp [h0, h1, hguard]

theorem applyTypeKey_good {elem e2 : Element} {t2 : ElementType} {kl : Nat} {v : String}
    (h : applyTypeKey elem t2 kl v = .ok e2) : goodElem e2 := by
  unfold applyTypeKey at h
  by_cases h0 : trimSpace v = ""
  · simp [h0] at h
  · by_cases h1 : hasSuffixSlash (trimSpace v) = true
    · simp [h0, h1] at h
    · simp only [h0, if_false, h1] at h
      simp [h0, h1] at h
      by_cases hguard : (trimSpace (parseSwimlaneE { elem with type := t2, name := trimSpace v }).swimlane ≠ "" ∧ trimSpace (parseSwimlaneE { elem with type := t2, name := trimSpace v }).name = "")
      · simp [hguard] at h
      · simp only [hguard, if_false] at h
        simp at h
        subst h
        intro hsw hnm
        exact hguard ⟨hsw, hnm⟩

theorem parseElemEntries_no_empty_name (ml : Nat) (entries : List (Node × Node))
    (ft : Bool) (elem : Element) (t : ElementType) (l : Nat) :
    parseElemEntries ml entries ft elem ≠ .error (.emptyNameAfterSwimlane t l) := by
  induction entries generalizing ft elem with
  | nil => simp [parseElemEntries]
  | cons entry rest ih =>
    cases entry with
    | mk keyNode valueNode =>
      simp only [parseElemEntries]
      by_cases hp : nodeValue keyNode = "props"
      · simp only [hp, if_true]
        cases hpp : parseProps valueNode with
        | error e => simp
        | ok props => exact ih ft _
      · simp only [hp, if_false]
        cases hk : elementPrefixes (nodeValue keyNode) with
        | none => simp
        | some t2 =>
          cases ft with
          | true => simp
          | false =>
            simp only [Bool.false_eq_true, if_false]
            cases ha : applyTypeKey elem t2 (nodeLine keyNode) (nodeValue valueNode) with
            | error e =>
              intro hEq
              simp at hEq
              exact applyTypeKey_no_empty_name elem t2 (nodeLine keyNode)
                (nodeValue valueNode) t l (hEq ▸ ha)
            | ok e2 => exact ih true e2

theorem parseElement_no_empty_name (node : Node) (t : ElementType) (l : Nat) :
    parseElement node ≠ .error (.emptyNameAfterSwimlane t l) := by
  unfold parseElement
  cases resolveAlias node with
  | mapping pairs line col =>
    cases hres : parseElemEntries line pairs false
        { type := .trigger, name := "", swimlane := "", props := [], line := line, col := col } with
    | error e =>
      simp only [hres]
      intro hEq
      simp at hEq
      exact parseElemEntries_no_empty_name line pairs false _ t l (hEq ▸ hres)
    | ok p =>
      cases p with
      | mk ft elem =>
        simp only [hres]
        cases ft <;> simp
  | scalar tag v l2 c2 => simp
  | sequence items l2 c2 => simp
  | aliasNode tgt l2 c2 => simp
  | document items l2 c2 => simp

theorem parseElemEntries_good {ml : Nat} {entries : List (Node × Node)}
    {ft : Bool} {elem : Element} {ft2 : Bool} {elem2 : Element}
    (h : parseElemEntries ml entries ft elem = .ok (ft2, elem2))
    (hg : ft = true → goodElem elem) : ft2 = true → goodElem elem2 := by
  induction entries generalizing ft elem with
  | nil =>
    simp [parseElemEntries] at h
    rw [← h.1, ← h.2]
    exact hg
  | cons entry rest ih =>
    cases entry with
    | mk keyNode valueNode =>
      simp only [parseElemEntries] at h
      by_cases hp : nodeValue keyNode = "props"
      · simp only [hp, if_true] at h
        cases hpp : parseProps valueNode with
        | error e => rw [hpp] at h; cases h
        | ok props =>
          rw [hpp] at h
          exact ih h hg
      · simp only [hp, if_false] at h
        cases hk : elementPrefixes (nodeValue keyNode) with
        | none => rw [hk] at h; cases h
        | some t2 =>
          rw [hk] at h
          cases ft with
          | true => simp at h
          | false =>
            simp only [Bool.false_eq_true, if_false] at h
            cases ha : applyTypeKey elem t2 (nodeLine keyNode) (nodeValue valueNode) with
            | error e => rw [ha] at h; cases h
            | ok e2 =>
              rw [ha] at h
              exact ih h (fun _ => applyTypeKey_good ha)

theorem parseElement_good {node : Node} {elem : Element}
    (h : parseElement node = .ok elem) : goodElem elem := by
  unfold parseElement at h
  cases hn : resolveAlias node with
  | mapping pairs line col =>
    rw [hn] at h
    simp only [] at h
    cases hres : parseElemEntries line pairs false
        { type := .trigger, name := "", swimlane := "", props := [], line := line, col := col } with
    | error e =>
      rw [hres] at h
      simp at h
    | ok p =>
      cases p with
      | mk ft elem3 =>
        rw [hres] at h
        cases ft with
        | true =>
          simp at h
          subst h
          exact parseElemEntries_good hres (by intro h2; cases h2) rfl
        | false => simp at h
  | scalar tag v l2 c2 => rw [hn] at h; simp at h
  | sequence items l2 c2 => rw [hn] at h; simp at h
  | aliasNode tgt l2 c2 => rw [hn] at h; simp at h
  | document items l2 c2 => rw [hn] at h; simp at h

theorem mem_mapInsert {α : Type} {m : List (String × α)} {k : String} {v : α}
    {p : String × α} (h : p ∈ mapInsert m k v) : p ∈ m ∨ p = (k, v) := by
  induction m with
  | nil =>
    simp [mapInsert] at h
    exact Or.inr h
  | cons q rest ih =>
    cases q with
    | mk k0 v0 =>
      unfold mapInsert at h
      by_cases hk : k0 = k
      · rw [if_pos hk] at h
        rcases List.mem_cons.mp h with rfl | h2
        · exact Or.inr rfl
        · exact Or.inl (List.mem_cons_of_mem _ h2)
      · rw [if_neg hk] at h
        rcases List.mem_cons.mp h with rfl | h2
        · exact Or.inl (List.mem_cons_self _ _)
        · rcases ih h2 with h3 | h3
          · exact Or.inl (List.mem_cons_of_mem _ h3)
          · exact Or.inr h3

theorem lookupStr_mem {α : Type} {m : List (String × α)} {n : String} {v : α}
    (h : lookupStr m n = some v) : (n, v) ∈ m := by
  induction m with
  | nil => simp [lookupStr] at h
  | cons q rest ih =>
    cases q with
    | mk k0 v0 =>
      unfold lookupStr at h
      by_cases hk : k0 = n
      · rw [if_pos hk] at h
        simp at h
        subst hk
        subst h
        exact List.mem_cons_self _ _
      · rw [if_neg hk] at h
        exact List.mem_cons_of_mem _ (ih h)

theorem parseElems_good {items : List Node} {elems : List Element}
    (h : parseElems items = .ok elems) : ∀ e ∈ elems, goodElem e := by
  induction items generalizing elems with
  | nil =>
    simp [parseElems] at h
    subst h
    intro e he
    cases he
  | cons item rest ih =>
    unfold parseElems at h
    cases he : parseElement item with
    | error e2 => rw [he] at h; cases h
    | ok elem =>
      rw [he] at h
      cases hr : parseElems rest with
      | error e2 => rw [hr] at h; cases h
      | ok elems2 =>
        rw [hr] at h
        simp at h
        subst h
        intro e hmem
        rcases List.mem_cons.mp hmem with rfl | h2
        · exact parseElement_good he
        · exact ih hr e h2

theorem parseElementList_good {node : Node} {elems : List Element}
    (h : parseElementList node = .ok elems) : ∀ e ∈ elems, goodElem e := by
  unfold parseElementList at h
  cases node with
  | sequence items l c => exact parseElems_good h
  | scalar tag v l c => cases h
  | mapping pairs l c => cases h
  | aliasNode tgt l c => cases h
  | document items l c => cases h

theorem parseTestSection_good {sec : String} {node : Node} {allowed : ElementType → Bool}
    {elems : List Element} (h : parseTestSection sec node allowed = .ok elems) :
    ∀ e ∈ elems, goodElem e := by
  unfold parseTestSection at h
  by_cases hn : isNullNode node = true
  · simp [hn] at h
    subst h
    intro e he
    cases he
  · simp only [hn, Bool.false_eq_true, if_false] at h
    split at h
    · cases h
    · next elems2 heq =>
      split at h
      · cases h
      · simp at h
        subst h
        exact parseElementList_good heq

theorem parseTestEntries_good {entries : List (Node × Node)} {test test2 : Test}
    (h : parseTestEntries entries test = .ok test2) (hg : goodTest test) :
    goodTest test2 := by
  induction entries generalizing test with
  | nil =>
    simp [parseTestEntries] at h
    subst h
    exact hg
  | cons entry rest ih =>
    cases entry with
    | mk keyNode valueNode =>
      unfold parseTestEntries at h
      split at h
      · split at h
        · cases h
        · next elems heq =>
          exact ih h ⟨parseTestSection_good heq, hg.2.1, hg.2.2⟩
      · split at h
        · cases h
        · next elems heq =>
          exact ih h ⟨hg.1, parseTestSection_good heq, hg.2.2⟩
      · split at h
        · cases h
        · next elems heq =>
          exact ih h ⟨hg.1, hg.2.1, parseTestSection_good heq⟩
      · cases h

theorem parseTest_good {name : String} {node : Node} {test : Test}
    (h : parseTest name node = .ok test) : goodTest test := by
  unfold parseTest at h
  by_cases hn : isNullNode node = true
  · simp [hn] at h
    subst h
    exact ⟨fun e he => absurd he (by simp), fun e he => absurd he (by simp),
      fun e he => absurd he (by simp)⟩
  · simp only [hn, Bool.false_eq_true, if_false] at h
    cases node with
    | mapping pairs l c =>
      refine parseTestEntries_good h ?_
      exact ⟨fun e he => absurd he (by simp), fun e he => absurd he (by simp),
        fun e he => absurd he (by simp)⟩
    | scalar tag v l c => cases h
    | sequence items l c => cases h
    | aliasNode tgt l c => cases h
    | document items l c => cases h

theorem parseTestsEntries_good {entries : List (Node × Node)}
    {tests tests2 : List (String × Test)}
    (h : parseTestsEntries entries tests = .ok tests2)
    (hg : ∀ p ∈ tests, goodTest p.2) : ∀ p ∈ tests2, goodTest p.2 := by
  induction entries generalizing tests with
  | nil =>
    simp [parseTestsEntries] at h
    subst h
    exact hg
  | cons entry rest ih =>
    cases entry with
    | mk keyNode valueNode =>
      simp only [parseTestsEntries] at h
      split at h
      · cases h
      · next test heq =>
        refine ih h ?_
        intro p hp
        rcases mem_mapInsert hp with h2 | h2
        · exact hg p h2
        · rw [h2]
          exact parseTest_good heq

theorem parseTests_good {node : Node} {tests : List (String × Test)}
    (h : parseTests node = .ok tests) : ∀ p ∈ tests, goodTest p.2 := by
  unfold parseTests at h
  by_cases hn : isNullNode node = true
  · simp [hn] at h
    subst h
    intro p hp
    cases hp
  · simp only [hn, Bool.false_eq_true, if_false] at h
    cases node with
    | mapping pairs l c =>
      refine parseTestsEntries_good h ?_
      intro p hp
      cases hp
    | scalar tag v l c => cases h
    | sequence items l c => cases h
    | aliasNode tgt l c => cases h
    | document items l c => cases h

theorem parseSliceEntries_good {entries : List (Node × Node)} {st st2 : SliceState}
    (h : parseSliceEntries entries st = .ok st2)
    (hge : ∀ elems, st.elementsOpt = some elems → ∀ e ∈ elems, goodElem e)
    (hgt : ∀ p ∈ st.tests, goodTest p.2) :
    (∀ elems, st2.elementsOpt = some elems → ∀ e ∈ elems, goodElem e) ∧
      ∀ p ∈ st2.tests, goodTest p.2 := by
  induction entries generalizing st with
  | nil =>
    simp [parseSliceEntries] at h
    subst h
    exact ⟨hge, hgt⟩
  | cons entry rest ih =>
    cases entry with
    | mk keyNode valueNode =>
      unfold parseSliceEntries at h
      split at h
      · split at h
        · refine ih h ?_ hgt
          intro elems heq
          simp at heq
          subst heq
          intro e he
          cases he
        · split at h
          · cases h
          · split at h
            · cases h
            · next elems heq hlen =>
              refine ih h ?_ hgt
              intro elems2 heq2
              simp at heq2
              subst heq2
              exact parseElementList_good heq
      · split at h
        · cases h
        · next tests heq =>
          exact ih h hge (parseTests_good heq)
      · cases h

theorem parseSlice_good {name : String} {node : Node} {slice : Slice}
    (h : parseSlice name node = .ok slice) : goodSlice slice := by
  unfold parseSlice at h
  by_cases hn : isNullNode node = true
  · simp [hn] at h
    subst h
    exact ⟨fun e he => absurd he (by simp), fun p hp => absurd hp (by simp)⟩
  · simp only [hn, Bool.false_eq_true, if_false] at h
    split at h
    · split at h
      · cases h
      · next elems heq =>
        split at h
        · cases h
        · simp at h
          subst h
          exact ⟨parseElementList_good heq, fun p hp => absurd hp (by simp)⟩
    · split at h
      · cases h
      · next st heq =>
        have hst := parseSliceEntries_good heq
          (by intro elems heq2; cases heq2) (by intro p hp; cases hp)
        split at h
        · cases h
        · next elems heq2 =>
          simp at h
          subst h
          exact ⟨hst.1 elems heq2, hst.2⟩
    · cases h

theorem parseSlicesEntries_good {entries : List (Node × Node)}
    {slices slices2 : List (String × Slice)} {order order2 : List String}
    (h : parseSlicesEntries entries slices order = .ok (slices2, order2))
    (hg : ∀ p ∈ slices, goodSlice p.2) : ∀ p ∈ slices2, goodSlice p.2 := by
  induction entries generalizing slices order with
  | nil =>
    simp [parseSlicesEntries] at h
    rw [← h.1]
    exact hg
  | cons entry rest ih =>
    cases entry with
    | mk keyNode valueNode =>
      simp only [parseSlicesEntries] at h
      split at h
      · cases h
      · next slice heq =>
        refine ih h ?_
        intro p hp
        rcases mem_mapInsert hp with h2 | h2
        · exact hg p h2
        · rw [h2]
          exact parseSlice_good heq

theorem parseSlices_good {node : Node} {slices : List (String × Slice)}
    {order : List String} (h : parseSlices node = .ok (slices, order)) :
    ∀ p ∈ slices, goodSlice p.2 := by
  unfold parseSlices at h
  by_cases hn : isNullNode node = true
  · simp [hn] at h
    rw [h.1]
    intro p hp
    cases hp
  · simp only [hn, Bool.false_eq_true, if_false] at h
    cases node with
    | mapping pairs l c =>
      refine parseSlicesEntries_good h ?_
      intro p hp
      cases hp
    | scalar tag v l c => cases h
    | sequence items l c => cases h
    | aliasNode tgt l c => cases h
    | document items l c => cases h

theorem mergeBatch_good {target localMap : List (String × Slice)} {order : List String}
    (hgt : ∀ p ∈ target, goodSlice p.2) (hgl : ∀ p ∈ localMap, goodSlice p.2) :
    ∀ p ∈ mergeBatch target localMap order, goodSlice p.2 := by
  induction order generalizing target with
  | nil => exact hgt
  | cons n rest ih =>
    unfold mergeBatch
    cases hl : lookupStr localMap n with
    | some slice =>
      refine ih ?_
      intro p hp
      rcases mem_mapInsert hp with h2 | h2
      · exact hgt p h2
      · rw [h2]
        exact hgl _ (lookupStr_mem hl)
    | none => exact ih hgt

theorem parseDocEntries_good {entries : List (Node × Node)}
    {docSlices docSlices2 : List (String × Slice)} {subDoc subDoc2 : SubDoc}
    (h : parseDocEntries entries docSlices subDoc = .ok (docSlices2, subDoc2))
    (hgd : ∀ p ∈ docSlices, goodSlice p.2) (hgs : ∀ p ∈ subDoc.slices, goodSlice p.2) :
    (∀ p ∈ docSlices2, goodSlice p.2) ∧ ∀ p ∈ subDoc2.slices, goodSlice p.2 := by
  induction entries generalizing docSlices subDoc with
  | nil =>
    simp [parseDocEntries] at h
    rw [← h.1, ← h.2]
    exact ⟨hgd, hgs⟩
  | cons entry rest ih =>
    cases entry with
    | mk keyNode valueNode =>
      unfold parseDocEntries at h
      split at h
      · split at h
        · cases h
        · next slicesLocal sliceOrder heq =>
          have hloc := parseSlices_good heq
          exact ih h (mergeBatch_good hgd hloc) (mergeBatch_good hgs hloc)
      · cases h

theorem parseDocument_good {root : Node}
    {docSlices docSlices2 : List (String × Slice)} {subDoc2 : SubDoc}
    (h : parseDocument root docSlices = .ok (docSlices2, subDoc2))
    (hgd : ∀ p ∈ docSlices, goodSlice p.2) :
    (∀ p ∈ docSlices2, goodSlice p.2) ∧ ∀ p ∈ subDoc2.slices, goodSlice p.2 := by
  unfold parseDocument at h
  cases root with
  | document items l c =>
    cases items with
    | nil =>
      simp at h
      rw [← h.1, ← h.2]
      exact ⟨hgd, fun p hp => absurd hp (by simp)⟩
    | cons docNode restItems =>
      cases docNode with
      | mapping pairs l2 c2 =>
        exact parseDocEntries_good h hgd (fun p hp => absurd hp (by simp))
      | scalar tag v l2 c2 => cases h
      | sequence its l2 c2 => cases h
      | aliasNode tgt l2 c2 => cases h
      | document its l2 c2 => cases h
  | scalar tag v l c =>
    simp at h
    rw [← h.1, ← h.2]
    exact ⟨hgd, fun p hp => absurd hp (by simp)⟩
  | sequence items l c =>
    simp at h
    rw [← h.1, ← h.2]
    exact ⟨hgd, fun p hp => absurd hp (by simp)⟩
  | mapping pairs l c =>
    simp at h
    rw [← h.1, ← h.2]
    exact ⟨hgd, fun p hp => absurd hp (by simp)⟩
  | aliasNode tgt l c =>
    simp at h
    rw [← h.1, ← h.2]
    exact ⟨hgd, fun p hp => absurd hp (by simp)⟩

theorem parseDocs_good {roots : List Node}
    {docSlices docSlices2 : List (String × Slice)} {subDocs subDocs2 : List SubDoc}
    (h : parseDocs roots docSlices subDocs = .ok (docSlices2, subDocs2))
    (hgd : ∀ p ∈ docSlices, goodSlice p.2) (hgs : ∀ sd ∈ subDocs, goodSubDoc sd) :
    (∀ p ∈ docSlices2, goodSlice p.2) ∧ ∀ sd ∈ subDocs2, goodSubDoc sd := by
  induction roots generalizing docSlices subDocs with
  | nil =>
    simp [parseDocs] at h
    rw [← h.1, ← h.2]
    exact ⟨hgd, hgs⟩
  | cons root rest ih =>
    unfold parseDocs at h
    cases hd : parseDocument root docSlices with
    | error e => rw [hd] at h; cases h
    | ok pq =>
      cases pq with
      | mk docSlices3 subDoc =>
        rw [hd] at h
        have hdg := parseDocument_good hd hgd
        refine ih h hdg.1 ?_
        intro sd hsd
        rcases List.mem_append.mp hsd with h2 | h2
        · exact hgs sd h2
        · simp at h2
          rw [h2]
          exact hdg.2

theorem parse_good {raw : List Nat} {roots : List Node} {d : Document}
    (h : parse raw roots = .ok d) : goodDoc d := by
  unfold parse at h
  cases hp : parseDocs roots [] [] with
  | error e => rw [hp] at h; cases h
  | ok pq =>
    cases pq with
    | mk slices subDocs =>
      rw [hp] at h
      simp at h
      have hg := parseDocs_good hp (fun p hp2 => absurd hp2 (by simp))
        (fun sd hsd => absurd hsd (by simp))
      subst h
      exact ⟨hg.1, hg.2⟩

/-- C9: in every Document returned by Parse, an element with a non-empty
swimlane has a non-empty name, and the empty-name-after-swimlane error
branch of parseElement is unreachable for every input: the earlier
empty-name and trailing-slash checks leave a working name whose last
character is neither whitespace nor a slash, so the trimmed remainder after
the first slash is never empty. -/
theorem claim_C9 :
    (∀ raw roots d, parse raw roots = .ok d → goodDoc d) ∧
    ∀ node t l, parseElement node ≠ .error (.emptyNameAfterSwimlane t l) :=
  ⟨fun _ _ _ h => parse_good h, parseElement_no_empty_name⟩

/-- Witness for C9: goodness of the document parsed from one concrete
physical document containing a swimlaned trigger. -/
theorem claim_C9_witness :
    goodDoc
      { slices := [("s", { name := "s", elements := [{ type := .trigger, name := "Go", swimlane := "Ops", props := [], line := 3, col := 5 }], tests := [] })],
        subDocs := [{ slices := [("s", { name := "s", elements := [{ type := .trigger, name := "Go", swimlane := "Ops", props := [], line := 3, col := 5 }], tests := [] })], sliceOrder := ["s"] }],
        rawSource := [] } :=
  claim_C9.1 []
    [.document [.mapping [(.scalar "!!str" "slices" 2 1,
        .mapping [(.scalar "!!str" "s" 3 1,
          .sequence [.mapping [(.scalar "!!str" "t" 3 5, .scalar "!!str" "Ops/Go" 3 8)] 3 5] 3 3)] 3 1)] 2 1] 2 1]
    _ rfl

/-! ### C3: null placeholder slices versus empty sequences -/

theorem isNullNode_ne_sequence {vn : Node} (h : isNullNode vn = true) :
    ∀ items l c, vn ≠ .sequence items l c := by
  intro items l c hvn
  subst hvn
  simp [isNullNode] at h

theorem parseSliceEntries_ok_no_empty_steps {entries : List (Node × Node)}
    {st st2 : SliceState} (h : parseSliceEntries entries st = .ok st2) :
    ∀ kn vn, (kn, vn) ∈ entries → nodeValue kn = "steps" →
      ∀ l2 c2, vn ≠ .sequence [] l2 c2 := by
  induction entries generalizing st with
  | nil =>
    intro kn vn hmem
    cases hmem
  | cons entry rest ih =>
    cases entry with
    | mk kn0 vn0 =>
      unfold parseSliceEntries at h
      split at h
      · next hkey0 =>
        split at h
        · next hnull =>
          intro kn vn hmem hkey l2 c2
          rcases List.mem_cons.mp hmem with hpe | hmem2
          · injection hpe with h1 h2
            subst h2
            exact isNullNode_ne_sequence hnull [] l2 c2
          · exact ih h kn vn hmem2 hkey l2 c2
        · next hnull =>
          split at h
          · cases h
          · next elems heq =>
            split at h
            · cases h
            · next hlen =>
              intro kn vn hmem hkey l2 c2
              rcases List.mem_cons.mp hmem with hpe | hmem2
              · injection hpe with h1 h2
                subst h2
                intro hvn
                subst hvn
                have : elems = [] := by
                  have h0 : parseElementList (Node.sequence [] l2 c2) = .ok [] := rfl
                  rw [h0] at heq
                  simp at heq
                  exact heq
                rw [this] at hlen
                simp at hlen
              · exact ih h kn vn hmem2 hkey l2 c2
      · split at h
        · cases h
        · next tests heq =>
          intro kn vn hmem hkey l2 c2
          rcases List.mem_cons.mp hmem with hpe | hmem2
          · injection hpe with h1 h2
            rw [h1] at hkey
            have hkt := ‹nodeValue kn0 = "tests"›
            rw [hkey] at hkt
            exact absurd hkt (by decide)
          · exact ih h kn vn hmem2 hkey l2 c2
      · cases h

/-- C3: a null slice value parses to a placeholder slice with zero elements
and no tests; an empty sequence as a direct-form slice value is rejected;
and any extended-form slice whose steps value is an empty sequence is
rejected. -/
theorem claim_C3 :
    (∀ name txt l c, parseSlice name (.scalar "!!null" txt l c) =
      .ok { name := name, elements := [], tests := [] }) ∧
    (∀ name l c, parseSlice name (.sequence [] l c) = .error (.sliceMinElements l)) ∧
    ∀ name pairs l c kn vn l2 c2, (kn, vn) ∈ pairs → nodeValue kn = "steps" →
      vn = .sequence [] l2 c2 → ∃ e, parseSlice name (.mapping pairs l c) = .error e := by
  refine ⟨fun name txt l c => rfl, fun name l c => rfl, ?_⟩
  intro name pairs l c kn vn l2 c2 hmem hkey hvn
  cases hps : parseSlice name (.mapping pairs l c) with
  | error e => exact ⟨e, rfl⟩
  | ok slice =>
    exfalso
    unfold parseSlice at hps
    simp only [isNullNode, Bool.false_eq_true, if_false] at hps
    split at hps
    · cases hps
    · next st heq =>
      exact parseSliceEntries_ok_no_empty_steps heq kn vn hmem hkey l2 c2 hvn

/-- Witness for C3: the empty-steps rejection applied to one concrete
extended slice. -/
theorem claim_C3_witness :
    ∃ e, parseSlice "s" (.mapping [(.scalar "!!str" "steps" 2 3, .sequence [] 2 10)] 2 1) =
      .error e :=
  claim_C3.2.2 "s" [(.scalar "!!str" "steps" 2 3, .sequence [] 2 10)] 2 1
    (.scalar "!!str" "steps" 2 3) (.sequence [] 2 10) 2 10
    (List.mem_cons_self _ _) rfl rfl

/-! ### C4: test-section typing -/

/-- The three sections of a test are typed by their allowed sets. -/
def typedTest (t : Test) : Prop :=
  (∀ e ∈ t.given, allowedGiven e.type = true) ∧
  (∀ e ∈ t.whenSec, allowedWhen e.type = true) ∧
  ∀ e ∈ t.thenSec, allowedThen e.type = true

theorem parseTestSection_typed {sec : String} {node : Node} {allowed : ElementType → Bool}
    {elems : List Element} (h : parseTestSection sec node allowed = .ok elems) :
    ∀ e ∈ elems, allowed e.type = true := by
  unfold parseTestSection at h
  by_cases hn : isNullNode node = true
  · simp [hn] at h
    subst h
    intro e he
    cases he
  · simp only [hn, Bool.false_eq_true, if_false] at h
    split at h
    · cases h
    · next elems2 heq =>
      split at h
      · cases h
      · next hf =>
        simp at h
        subst h
        intro e he
        have := List.find?_eq_none.mp hf e he
        simpa using this

theorem parseTestEntries_typed {entries : List (Node × Node)} {test test2 : Test}
    (h : parseTestEntries entries test = .ok test2) (hg : typedTest test) :
    typedTest test2 := by
  induction entries generalizing test with
  | nil =>
    simp [parseTestEntries] at h
    subst h
    exact hg
  | cons entry rest ih =>
    cases entry with
    | mk keyNode valueNode =>
      unfold parseTestEntries at h
      split at h
      · split at h
        · cases h
        · next elems heq =>
          exact ih h ⟨parseTestSection_typed heq, hg.2.1, hg.2.2⟩
      · split at h
        · cases h
        · next elems heq =>
          exact ih h ⟨hg.1, parseTestSection_typed heq, hg.2.2⟩
      · split at h
        · cases h
        · next elems heq =>
          exact ih h ⟨hg.1, hg.2.1, parseTestSection_typed heq⟩
      · cases h

theorem parseTest_typed {name : String} {node : Node} {test : Test}
    (h : parseTest name node = .ok test) : typedTest test := by
  unfold parseTest at h
  by_cases hn : isNullNode node = true
  · simp [hn] at h
    subst h
    exact ⟨fun e he => absurd he (by simp), fun e he => absurd he (by simp),
      fun e he => absurd he (by simp)⟩
  · simp only [hn, Bool.false_eq_true, if_false] at h
    split at h
    · refine parseTestEntries_typed h ?_
      exact ⟨fun e he => absurd he (by simp), fun e he => absurd he (by simp),
        fun e he => absurd he (by simp)⟩
    · cases h

theorem allowedGiven_iff (t : ElementType) :
    allowedGiven t = true ↔ t = .event ∨ t = .view := by
  cases t <;> simp [allowedGiven]

theorem allowedWhen_iff (t : ElementType) :
    allowedWhen t = true ↔ t = .command := by
  cases t <;> simp [allowedWhen]

theorem allowedThen_iff (t : ElementType) :
    allowedThen t = true ↔ t = .event ∨ t = .view ∨ t = .exception := by
  cases t <;> simp [allowedThen]

theorem parseElementList_not_null {node : Node} {elems : List Element}
    (h : parseElementList node = .ok elems) : isNullNode node = false := by
  unfold parseElementList at h
  cases node with
  | sequence items l c => rfl
  | scalar tag v l c => cases h
  | mapping pairs l c => cases h
  | aliasNode tgt l c => cases h
  | document items l c => cases h

/-- C4: for every successfully parsed test, given holds only events and
views, when holds only commands, and then holds only events, views and
exceptions; and whenever the element list of a section parses but contains
an element whose type is outside the section's allowed set, the section is
rejected with an error naming the section, the offending type being outside
the set. -/
theorem claim_C4 :
    (∀ name node t, parseTest name node = .ok t →
      (∀ e ∈ t.given, e.type = .event ∨ e.type = .view) ∧
      (∀ e ∈ t.whenSec, e.type = .command) ∧
      ∀ e ∈ t.thenSec, e.type = .event ∨ e.type = .view ∨ e.type = .exception) ∧
    ∀ sec node allowed elems e, parseElementList node = .ok elems → e ∈ elems →
      allowed e.type = false →
      ∃ t2 line, parseTestSection sec node allowed = .error (.typeNotAllowed sec t2 line) ∧
        allowed t2 = false := by
  constructor
  · intro name node t h
    have ht := parseTest_typed h
    exact ⟨fun e he => (allowedGiven_iff e.type).mp (ht.1 e he),
      fun e he => (allowedWhen_iff e.type).mp (ht.2.1 e he),
      fun e he => (allowedThen_iff e.type).mp (ht.2.2 e he)⟩
  · intro sec node allowed elems e hl hmem hbad
    have hnn : isNullNode node = false := parseElementList_not_null hl
    unfold parseTestSection
    rw [hnn]
    simp only [Bool.false_eq_true, if_false, hl]
    cases hf : elems.find? (fun e2 => !allowed e2.type) with
    | none =>
      exfalso
      have := List.find?_eq_none.mp hf e hmem
      simp [hbad] at this
    | some e0 =>
      have hp := List.find?_some hf
      simp at hp
      exact ⟨e0.type, e0.line, rfl, hp⟩

/-- Witness for C4: a trigger inside a when section is rejected with an
error naming the section. -/
theorem claim_C4_witness :
    ∃ t2 line,
      parseTestSection "when"
        (.sequence [.mapping [(.scalar "!!str" "t" 5 7, .scalar "!!str" "Click" 5 10)] 5 7] 5 5)
        allowedWhen =
        .error (.typeNotAllowed "when" t2 line) ∧ allowedWhen t2 = false :=
  claim_C4.2 "when"
    (.sequence [.mapping [(.scalar "!!str" "t" 5 7, .scalar "!!str" "Click" 5 10)] 5 7] 5 5)
    allowedWhen
    [{ type := .trigger, name := "Click", swimlane := "", props := [], line := 5, col := 7 }]
    { type := .trigger, name := "Click", swimlane := "", props := [], line := 5, col := 7 }
    rfl (List.mem_cons_self _ _) rfl

/-! ### C1: column assignment -/

theorem lookup_mapInsert {α : Type} (m : List (String × α)) (k x : String) (v : α) :
    lookupStr (mapInsert m k v) x = if k = x then some v else lookupStr m x := by
  induction m with
  | nil =>
    simp [mapInsert, lookupStr]
  | cons q rest ih =>
    cases q with
    | mk k0 v0 =>
      unfold mapInsert
      by_cases hk : k0 = k
      · subst hk
        by_cases hx : k0 = x
        · simp [lookupStr, hx]
        · simp [lookupStr, hx]
      · rw [if_neg hk]
        by_cases hx : k0 = x
        · subst hx
          have hkx : ¬ k = k0 := fun hEq => hk hEq.symm
          simp [lookupStr, hkx]
        · simp [lookupStr, hx, ih]

theorem lookup_foldInsert (sd : SubDoc) (l : List String)
    (m0 : List (String × Nat)) (x : String) :
    lookupStr (l.foldl (fun m n => mapInsert m n (sliceWidth sd n)) m0) x =
      if x ∈ l then some (sliceWidth sd x) else lookupStr m0 x := by
  induction l generalizing m0 with
  | nil => simp
  | cons y ys ih =>
    simp only [List.foldl_cons]
    rw [ih]
    by_cases hmem : x ∈ ys
    · simp [hmem]
    · by_cases hxy : x = y
      · subst hxy
        simp [hmem, lookup_mapInsert]
      · have : ¬ y = x := fun hEq => hxy hEq.symm
        simp [hmem, lookup_mapInsert, this, hxy]

theorem assignCols_notmem (widths m : List (String × Nat)) (col : Nat)
    (order : List String) (x : String) (hx : x ∉ order) :
    lookupStr (assignCols widths m col order) x = lookupStr m x := by
  induction order generalizing m col with
  | nil => rfl
  | cons y ys ih =>
    unfold assignCols
    have hxy : x ≠ y := fun hEq => hx (hEq ▸ List.mem_cons_self _ _)
    have hys : x ∉ ys := fun h2 => hx (List.mem_cons_of_mem _ h2)
    rw [ih _ _ hys, lookup_mapInsert]
    rw [if_neg (fun hEq : y = x => hxy hEq.symm)]

theorem assignCols_lookup (widths m : List (String × Nat)) (col : Nat)
    (order : List String) (hnd : order.Nodup) (i : Nat) (hi : i < order.length) :
    lookupStr (assignCols widths m col order) (order.get ⟨i, hi⟩) =
      some (col + ((order.take i).map (fun n => (lookupStr widths n).getD 0)).sum) := by
  induction order generalizing m col i with
  | nil => cases hi
  | cons y ys ih =>
    cases i with
    | zero =>
      simp only [List.get, List.take, List.map, List.sum_nil]
      unfold assignCols
      have hy : y ∉ ys := (List.nodup_cons.mp hnd).1
      rw [assignCols_notmem _ _ _ _ _ hy, lookup_mapInsert]
      simp
    | succ j =>
      have hj : j < ys.length := Nat.lt_of_succ_lt_succ hi
      unfold assignCols
      have hnd2 : ys.Nodup := (List.nodup_cons.mp hnd).2
      have hget : (y :: ys).get ⟨j + 1, hi⟩ = ys.get ⟨j, hj⟩ := rfl
      rw [hget, ih _ _ hnd2 j hj]
      simp [Nat.add_assoc]

theorem sliceWidth_eq_max (sd : SubDoc) (n : String) :
    sliceWidth sd n = max 1 (getSlice sd n).elements.length := by
  unfold sliceWidth
  cases h : (getSlice sd n).elements.length with
  | zero => simp
  | succ k => simp [Nat.succ_ne_zero]

theorem laneStep_hasSw (st : LaneState) (e : Element) :
    (laneStep st e).hasSwimlanes = true ↔
      st.hasSwimlanes = true ∨ e.swimlane ≠ "" := by
  obtain ⟨ty, nm, sw, pr, ln, cl⟩ := e
  unfold laneStep
  by_cases hs : sw = ""
  · subst hs
    cases ty <;> simp [apply_ite]
  · cases ty <;> simp [apply_ite, hs]

theorem elemsFold_hasSw (elems : List Element) (st : LaneState) :
    ((elems.foldl laneStep st).hasSwimlanes = true) ↔
      st.hasSwimlanes = true ∨ ∃ e ∈ elems, e.swimlane ≠ "" := by
  induction elems generalizing st with
  | nil => simp
  | cons e rest ih =>
    simp only [List.foldl_cons]
    rw [ih, laneStep_hasSw]
    constructor
    · intro h
      rcases h with (h | h) | ⟨e2, he2, hs⟩
      · exact Or.inl h
      · exact Or.inr ⟨e, List.mem_cons_self _ _, h⟩
      · exact Or.inr ⟨e2, List.mem_cons_of_mem _ he2, hs⟩
    · intro h
      rcases h with h | ⟨e2, he2, hs⟩
      · exact Or.inl (Or.inl h)
      · rcases List.mem_cons.mp he2 with rfl | h2
        · exact Or.inl (Or.inr hs)
        · exact Or.inr ⟨e2, h2, hs⟩

theorem orderFold_hasSw (sd : SubDoc) (order : List String) (st : LaneState) :
    ((order.foldl (fun st2 n => (getSlice sd n).elements.foldl laneStep st2) st).hasSwimlanes
        = true) ↔
      st.hasSwimlanes = true ∨ ∃ n ∈ order, ∃ e ∈ (getSlice sd n).elements, e.swimlane ≠ "" := by
  induction order generalizing st with
  | nil => simp
  | cons n rest ih =>
    simp only [List.foldl_cons]
    rw [ih, elemsFold_hasSw]
    simp only [List.mem_cons]
    constructor
    · rintro ((h | h) | ⟨n2, hn2, h2⟩)
      · exact Or.inl h
      · exact Or.inr ⟨n, Or.inl rfl, h⟩
      · exact Or.inr ⟨n2, Or.inr hn2, h2⟩
    · rintro (h | ⟨n2, hn2 | hn2, h2⟩)
      · exact Or.inl (Or.inl h)
      · subst hn2
        exact Or.inl (Or.inr h2)
      · exact Or.inr ⟨n2, hn2, h2⟩

theorem laneScan_hasSw (sd : SubDoc) :
    ((laneScan sd).hasSwimlanes = true) ↔
      ∃ n ∈ sd.sliceOrder, ∃ e ∈ (getSlice sd n).elements, e.swimlane ≠ "" := by
  unfold laneScan
  rw [orderFold_hasSw]
  simp

theorem computeLayout_widths (sd : SubDoc) :
    (computeLayout sd).sliceWidths =
      sd.sliceOrder.foldl (fun m n => mapInsert m n (sliceWidth sd n)) [] := by
  by_cases h : (laneScan sd).hasSwimlanes = true <;> simp [computeLayout, h]

theorem computeLayout_hasSw (sd : SubDoc) :
    (computeLayout sd).hasSwimlanes = (laneScan sd).hasSwimlanes := by
  by_cases h : (laneScan sd).hasSwimlanes = true <;> simp [computeLayout, h]

theorem computeLayout_startCol (sd : SubDoc) :
    (computeLayout sd).sliceStartCol =
      assignCols (sd.sliceOrder.foldl (fun m n => mapInsert m n (sliceWidth sd n)) []) []
        (if (laneScan sd).hasSwimlanes = true then 2 else 1) sd.sliceOrder := by
  by_cases h : (laneScan sd).hasSwimlanes = true <;> simp [computeLayout, h]

theorem computeLayout_total (sd : SubDoc) :
    (computeLayout sd).totalColumns =
      (if (laneScan sd).hasSwimlanes = true then 1 else 0) + totalWidthOf sd := by
  by_cases h : (laneScan sd).hasSwimlanes = true <;> simp [computeLayout, h]

/-- A SubDoc with slice a of 2 unlaned elements and slice b of 3 elements
whose trigger carries swimlane X (the layout-determinism example). -/
def exSliceA : Slice :=
  { name := "a", elements := [{ type := .command, name := "C1", swimlane := "", props := [], line := 1, col := 1 }, { type := .event, name := "E1", swimlane := "", props := [], line := 1, col := 2 }], tests := [] }

/-- Slice b of the layout-determinism example. -/
def exSliceB : Slice :=
  { name := "b", elements := [{ type := .trigger, name := "T", swimlane := "X", props := [], line := 2, col := 1 }, { type := .command, name := "C2", swimlane := "", props := [], line := 2, col := 2 }, { type := .event, name := "E2", swimlane := "", props := [], line := 2, col := 3 }], tests := [] }

/-- The layout-determinism example SubDoc. -/
def exampleSubDoc : SubDoc :=
  { slices := [("a", exSliceA), ("b", exSliceB)], sliceOrder := ["a", "b"] }

/-- C1: each slice's column width is its element count with a floor of one;
the swimlane label column is reserved exactly when some element carries a
non-empty swimlane; slices receive contiguous column spans in SliceOrder
starting at column 2 (with swimlanes) or 1 (without); TotalColumns is the
reserved column count plus the sum of the widths; and on the example
SubDoc (a: two unlaned elements, b: three elements with one trigger in
swimlane X) the layout has swimlanes, 6 total columns, a at columns 2-3 and
b at columns 4-6. -/
theorem claim_C1 :
    (∀ sd : SubDoc, ∀ n ∈ sd.sliceOrder,
      lookupStr (computeLayout sd).sliceWidths n =
        some (max 1 (getSlice sd n).elements.length)) ∧
    (∀ sd : SubDoc, ((computeLayout sd).hasSwimlanes = true ↔
      ∃ n ∈ sd.sliceOrder, ∃ e ∈ (getSlice sd n).elements, e.swimlane ≠ "")) ∧
    (∀ sd : SubDoc, sd.sliceOrder.Nodup → ∀ i (hi : i < sd.sliceOrder.length),
      lookupStr (computeLayout sd).sliceStartCol (sd.sliceOrder.get ⟨i, hi⟩) =
        some ((if (computeLayout sd).hasSwimlanes = true then 2 else 1) +
          ((sd.sliceOrder.take i).map (sliceWidth sd)).sum)) ∧
    (∀ sd : SubDoc, (computeLayout sd).totalColumns =
      (if (computeLayout sd).hasSwimlanes = true then 1 else 0) +
        (sd.sliceOrder.map (sliceWidth sd)).sum) ∧
    ((computeLayout exampleSubDoc).hasSwimlanes = true ∧
      (computeLayout exampleSubDoc).totalColumns = 6 ∧
      lookupStr (computeLayout exampleSubDoc).sliceStartCol "a" = some 2 ∧
      lookupStr (computeLayout exampleSubDoc).sliceWidths "a" = some 2 ∧
      lookupStr (computeLayout exampleSubDoc).sliceStartCol "b" = some 4 ∧
      lookupStr (computeLayout exampleSubDoc).sliceWidths "b" = some 3) := by
  refine ⟨?_, ?_, ?_, ?_, by decide⟩
  · intro sd n hn
    rw [computeLayout_widths, lookup_foldInsert, if_pos hn, sliceWidth_eq_max]
  · intro sd
    rw [computeLayout_hasSw]
    exact laneScan_hasSw sd
  · intro sd hnd i hi
    rw [computeLayout_startCol, computeLayout_hasSw,
      assignCols_lookup _ _ _ _ hnd i hi]
    have hmap : (sd.sliceOrder.take i).map
        (fun n => (lookupStr (sd.sliceOrder.foldl
          (fun m n2 => mapInsert m n2 (sliceWidth sd n2)) []) n).getD 0) =
        (sd.sliceOrder.take i).map (sliceWidth sd) := by
      apply List.map_congr_left
      intro n hn
      rw [lookup_foldInsert, if_pos (List.mem_of_mem_take hn)]
      rfl
    rw [hmap]
  · intro sd
    rw [computeLayout_total, computeLayout_hasSw]
    rfl

/-- Witness for C1: the contiguous-span law applied to slice b of the
example SubDoc. -/
theorem claim_C1_witness :
    lookupStr (computeLayout exampleSubDoc).sliceStartCol
        (exampleSubDoc.sliceOrder.get ⟨1, by decide⟩) =
      some ((if (computeLayout exampleSubDoc).hasSwimlanes = true then 2 else 1) +
        ((exampleSubDoc.sliceOrder.take 1).map (sliceWidth exampleSubDoc)).sum) :=
  claim_C1.2.2.1 exampleSubDoc (by decide) 1 (by decide)

/-! ### C6: row grouping -/

theorem laneStep_hasMain (st : LaneState) (e : Element) :
    (laneStep st e).hasMainRow = true ↔
      st.hasMainRow = true ∨ e.type = .command ∨ e.type = .view := by
  obtain ⟨ty, nm, sw, pr, ln, cl⟩ := e
  unfold laneStep
  by_cases hs : sw = ""
  · subst hs
    cases ty <;> simp [apply_ite]
  · cases ty <;> simp [apply_ite, hs]

theorem elemsFold_hasMain (elems : List Element) (st : LaneState) :
    ((elems.foldl laneStep st).hasMainRow = true) ↔
      st.hasMainRow = true ∨ ∃ e ∈ elems, e.type = .command ∨ e.type = .view := by
  induction elems generalizing st with
  | nil => simp
  | cons e rest ih =>
    simp only [List.foldl_cons]
    rw [ih, laneStep_hasMain]
    constructor
    · intro h
      rcases h with (h | h) | ⟨e2, he2, hs⟩
      · exact Or.inl h
      · exact Or.inr ⟨e, List.mem_cons_self _ _, h⟩
      · exact Or.inr ⟨e2, List.mem_cons_of_mem _ he2, hs⟩
    · intro h
      rcases h with h | ⟨e2, he2, hs⟩
      · exact Or.inl (Or.inl h)
      · rcases List.mem_cons.mp he2 with rfl | h2
        · exact Or.inl (Or.inr hs)
        · exact Or.inr ⟨e2, h2, hs⟩

theorem orderFold_hasMain (sd : SubDoc) (order : List String) (st : LaneState) :
    ((order.foldl (fun st2 n => (getSlice sd n).elements.foldl laneStep st2) st).hasMainRow
        = true) ↔
      st.hasMainRow = true ∨
        ∃ n ∈ order, ∃ e ∈ (getSlice sd n).elements, e.type = .command ∨ e.type = .view := by
  induction order generalizing st with
  | nil => simp
  | cons n rest ih =>
    simp only [List.foldl_cons]
    rw [ih, elemsFold_hasMain]
    simp only [List.mem_cons]
    constructor
    · rintro ((h | h) | ⟨n2, hn2, h2⟩)
      · exact Or.inl h
      · exact Or.inr ⟨n, Or.inl rfl, h⟩
      · exact Or.inr ⟨n2, Or.inr hn2, h2⟩
    · rintro (h | ⟨n2, hn2 | hn2, h2⟩)
      · exact Or.inl (Or.inl h)
      · subst hn2
        exact Or.inl (Or.inr h2)
      · exact Or.inr ⟨n2, hn2, h2⟩

theorem computeLayout_hasMain (sd : SubDoc) :
    (computeLayout sd).hasMainRow = (laneScan sd).hasMainRow := by
  by_cases h : (laneScan sd).hasSwimlanes = true <;> simp [computeLayout, h]

theorem computeLayout_triggerLanes (sd : SubDoc) :
    (computeLayout sd).triggerLanes = (laneScan sd).triggerLanes := by
  by_cases h : (laneScan sd).hasSwimlanes = true <;> simp [computeLayout, h]

theorem computeLayout_eventLanes (sd : SubDoc) :
    (computeLayout sd).eventLanes = (laneScan sd).eventLanes := by
  by_cases h : (laneScan sd).hasSwimlanes = true <;> simp [computeLayout, h]

theorem hasTests_iff (sd : SubDoc) :
    hasTests sd = true ↔ ∃ n ∈ sd.sliceOrder, (getSlice sd n).tests ≠ [] := by
  unfold hasTests
  rw [List.any_eq_true]
  constructor
  · rintro ⟨n, hn, hp⟩
    refine ⟨n, hn, ?_⟩
    intro hnil
    rw [hnil] at hp
    simp at hp
  · rintro ⟨n, hn, hne⟩
    refine ⟨n, hn, ?_⟩
    simpa [List.length_pos] using hne

theorem buildElementRow_mem (l2 : Layout) (sd2 : SubDoc) (cls lane : String)
    (matchF : Element → Bool) (j : Nat) (hj : j < l2.sliceOrder.length)
    (hj2 : j < (buildElementRow l2 sd2 cls lane matchF).slices.length) (ed : ElementData) :
    ed ∈ ((buildElementRow l2 sd2 cls lane matchF).slices.get ⟨j, hj2⟩).elements ↔
      ∃ i, ∃ hi : i < (getSlice sd2 (l2.sliceOrder.get ⟨j, hj⟩)).elements.length,
        matchF ((getSlice sd2 (l2.sliceOrder.get ⟨j, hj⟩)).elements.get ⟨i, hi⟩) = true ∧
        ed = mkElementData ((getSlice sd2 (l2.sliceOrder.get ⟨j, hj⟩)).elements.get ⟨i, hi⟩)
          (i + 1) := by
  unfold buildElementRow
  simp only [List.get_eq_getElem, List.getElem_map]
  rw [List.mem_filterMap]
  constructor
  · rintro ⟨a, hmem, hif⟩
    rw [List.mem_enum_iff_getElem?] at hmem
    obtain ⟨hlt, hget⟩ := List.getElem?_eq_some_iff.mp hmem
    by_cases hm : matchF a.2 = true
    · rw [if_pos hm] at hif
      refine ⟨a.1, hlt, ?_, ?_⟩
      · rw [hget]
        exact hm
      · rw [hget]
        simp at hif
        exact hif.symm
    · rw [if_neg (by simpa using hm)] at hif
      cases hif
  · rintro ⟨i, hi, hm, hed⟩
    refine ⟨(i, (getSlice sd2 l2.sliceOrder[j]).elements.get ⟨i, hi⟩), ?_, ?_⟩
    · rw [List.mem_enum_iff_getElem?]
      simp
    · simp only [List.get_eq_getElem]
      rw [if_pos hm, hed]

/-- C6: the ordered row list of a document's layout is one row per trigger
lane (in first-appearance order), then one main row exactly when some
command or view exists, then one row per event lane, then one tests row
exactly when some slice has a test; and a row's per-slice cells hold
exactly the matching elements, each at grid column equal to its 1-based
position within its own slice's element list. -/
theorem claim_C6 :
    (∀ hash idx sd, (buildDocumentData hash idx sd).rows =
      ((computeLayout sd).triggerLanes.map (fun lane =>
        buildElementRow (computeLayout sd) sd "emlang-row-triggers" lane
          (fun e => e.type == .trigger && e.swimlane == lane))) ++
      (if (computeLayout sd).hasMainRow = true then
        [buildElementRow (computeLayout sd) sd "emlang-row-main" ""
          (fun e => e.type == .command || e.type == .view)]
      else []) ++
      ((computeLayout sd).eventLanes.map (fun lane =>
        buildElementRow (computeLayout sd) sd "emlang-row-events" lane
          (fun e => (e.type == .event || e.type == .exception) && e.swimlane == lane))) ++
      (if hasTests sd = true then [buildTestsRow (computeLayout sd) sd] else [])) ∧
    (∀ sd, ((computeLayout sd).hasMainRow = true ↔
      ∃ n ∈ sd.sliceOrder, ∃ e ∈ (getSlice sd n).elements,
        e.type = .command ∨ e.type = .view)) ∧
    (∀ sd, (hasTests sd = true ↔ ∃ n ∈ sd.sliceOrder, (getSlice sd n).tests ≠ [])) ∧
    ∀ l2 sd2 cls lane matchF j (hj : j < l2.sliceOrder.length)
      (hj2 : j < (buildElementRow l2 sd2 cls lane matchF).slices.length) ed,
      ed ∈ ((buildElementRow l2 sd2 cls lane matchF).slices.get ⟨j, hj2⟩).elements ↔
        ∃ i, ∃ hi : i < (getSlice sd2 (l2.sliceOrder.get ⟨j, hj⟩)).elements.length,
          matchF ((getSlice sd2 (l2.sliceOrder.get ⟨j, hj⟩)).elements.get ⟨i, hi⟩) = true ∧
          ed = mkElementData
            ((getSlice sd2 (l2.sliceOrder.get ⟨j, hj⟩)).elements.get ⟨i, hi⟩) (i + 1) := by
  refine ⟨fun hash idx sd => rfl, ?_, hasTests_iff, buildElementRow_mem⟩
  intro sd
  rw [computeLayout_hasMain]
  unfold laneScan
  rw [orderFold_hasMain]
  simp

/-- Witness for C6: the content characterization applied to the main row of
the example SubDoc at slice a, exhibiting its command at grid column 1. -/
theorem claim_C6_witness :
    mkElementData { type := .command, name := "C1", swimlane := "", props := [], line := 1, col := 1 } 1 ∈
      ((buildElementRow (computeLayout exampleSubDoc) exampleSubDoc "emlang-row-main" ""
          (fun e => e.type == .command || e.type == .view)).slices.get
        ⟨0, by decide⟩).elements ↔
      ∃ i, ∃ hi : i <
          (getSlice exampleSubDoc ((computeLayout exampleSubDoc).sliceOrder.get ⟨0, by decide⟩)).elements.length,
        (fun e => e.type == .command || e.type == .view)
            ((getSlice exampleSubDoc
              ((computeLayout exampleSubDoc).sliceOrder.get ⟨0, by decide⟩)).elements.get ⟨i, hi⟩) = true ∧
        mkElementData { type := .command, name := "C1", swimlane := "", props := [], line := 1, col := 1 } 1 =
          mkElementData ((getSlice exampleSubDoc
            ((computeLayout exampleSubDoc).sliceOrder.get ⟨0, by decide⟩)).elements.get ⟨i, hi⟩) (i + 1) :=
  claim_C6.2.2.2 (computeLayout exampleSubDoc) exampleSubDoc "emlang-row-main" ""
    (fun e => e.type == .command || e.type == .view) 0 (by decide) (by decide) _

/-! ### C5: last-write-wins merge across physical documents -/

theorem mergeBatch_lookup (t loc : List (String × Slice)) (order : List String) (n : String) :
    lookupStr (mergeBatch t loc order) n =
      if n ∈ order ∧ (lookupStr loc n).isSome then lookupStr loc n else lookupStr t n := by
  induction order generalizing t with
  | nil => simp [mergeBatch]
  | cons y ys ih =>
    unfold mergeBatch
    cases hy : lookupStr loc y with
    | some slice =>
      rw [ih]
      by_cases hmem : n ∈ ys ∧ (lookupStr loc n).isSome
      · rw [if_pos hmem, if_pos ⟨List.mem_cons_of_mem _ hmem.1, hmem.2⟩]
      · rw [if_neg hmem]
        by_cases hn : n = y
        · subst hn
          rw [if_pos ⟨List.mem_cons_self _ _, by rw [hy]; rfl⟩, hy, lookup_mapInsert]
          simp
        · rw [lookup_mapInsert, if_neg (fun hEq : y = n => hn hEq.symm), if_neg ?_]
          rintro ⟨hc, hs⟩
          rcases List.mem_cons.mp hc with rfl | hc2
          · exact hn rfl
          · exact hmem ⟨hc2, hs⟩
    | none =>
      rw [ih]
      by_cases hmem : n ∈ ys ∧ (lookupStr loc n).isSome
      · rw [if_pos hmem, if_pos ⟨List.mem_cons_of_mem _ hmem.1, hmem.2⟩]
      · rw [if_neg hmem, if_neg ?_]
        rintro ⟨hc, hs⟩
        rcases List.mem_cons.mp hc with rfl | hc2
        · rw [hy] at hs
          cases hs
        · exact hmem ⟨hc2, hs⟩

theorem parseDocEntries_RS {m0 : List (String × Slice)} {entries : List (Node × Node)}
    {m : List (String × Slice)} {sd : SubDoc} {m2 : List (String × Slice)} {sd2 : SubDoc}
    (h : parseDocEntries entries m sd = .ok (m2, sd2))
    (hR : ∀ n, (lookupStr sd.slices n).isSome → lookupStr m n = lookupStr sd.slices n)
    (hS : ∀ n, lookupStr sd.slices n = none → lookupStr m n = lookupStr m0 n) :
    (∀ n, (lookupStr sd2.slices n).isSome → lookupStr m2 n = lookupStr sd2.slices n) ∧
      ∀ n, lookupStr sd2.slices n = none → lookupStr m2 n = lookupStr m0 n := by
  induction entries generalizing m sd with
  | nil =>
    simp [parseDocEntries] at h
    rw [← h.1, ← h.2]
    exact ⟨hR, hS⟩
  | cons entry rest ih =>
    cases entry with
    | mk keyNode valueNode =>
      unfold parseDocEntries at h
      split at h
      · split at h
        · cases h
        · next loc order heq =>
          refine ih h ?_ ?_
          · intro n hsome
            simp only [] at hsome ⊢
            rw [mergeBatch_lookup] at hsome ⊢
            rw [mergeBatch_lookup]
            by_cases hc : n ∈ order ∧ (lookupStr loc n).isSome
            · rw [if_pos hc]
              rw [if_pos hc]
            · rw [if_neg hc] at hsome ⊢
              rw [if_neg hc]
              exact hR n hsome
          · intro n hnone
            simp only [] at hnone ⊢
            rw [mergeBatch_lookup] at hnone ⊢
            by_cases hc : n ∈ order ∧ (lookupStr loc n).isSome
            · rw [if_pos hc] at hnone
              rw [hnone] at hc
              cases hc.2
            · rw [if_neg hc] at hnone
              rw [if_neg hc]
              exact hS n hnone
      · cases h

theorem parseDocument_RS {root : Node} {m0 m2 : List (String × Slice)} {sd2 : SubDoc}
    (h : parseDocument root m0 = .ok (m2, sd2)) :
    (∀ n, (lookupStr sd2.slices n).isSome → lookupStr m2 n = lookupStr sd2.slices n) ∧
      ∀ n, lookupStr sd2.slices n = none → lookupStr m2 n = lookupStr m0 n := by
  unfold parseDocument at h
  split at h
  · split at h
    · simp at h
      rw [← h.1, ← h.2]
      refine ⟨?_, fun n _ => rfl⟩
      intro n hsome
      simp [lookupStr] at hsome
    · split at h
      · exact parseDocEntries_RS h (fun n hsome => by simp [lookupStr] at hsome)
          (fun n _ => rfl)
      · cases h
  · simp at h
    rw [← h.1, ← h.2]
    refine ⟨?_, fun n _ => rfl⟩
    intro n hsome
    simp [lookupStr] at hsome

theorem parse_two {raw : List Nat} {r1 r2 : Node} {doc : Document}
    (h : parse raw [r1, r2] = .ok doc) :
    ∃ m1 sd1 m2 sd2, parseDocument r1 [] = .ok (m1, sd1) ∧
      parseDocument r2 m1 = .ok (m2, sd2) ∧
      doc = { slices := m2, subDocs := [sd1, sd2], rawSource := raw } := by
  unfold parse at h
  cases hp : parseDocs [r1, r2] [] [] with
  | error e => rw [hp] at h; cases h
  | ok pq =>
    rw [hp] at h
    simp at h
    unfold parseDocs at hp
    split at hp
    · cases hp
    · next m1 sd1 heq1 =>
      unfold parseDocs at hp
      split at hp
      · cases hp
      · next m2 sd2 heq2 =>
        simp [parseDocs] at hp
        refine ⟨m1, sd1, m2, sd2, heq1, heq2, ?_⟩
        subst hp
        exact h.symm

/-- C5: merging across physical documents is last-write-wins.  With two
documents defining distinct slice names, the merged map holds both slices
and the document has exactly two sub-documents; with both documents
defining the same name, the merged map holds the second document's slice
while the first sub-document's own map is untouched; and a document whose
single slices mapping holds one slice name yields that name as its whole
SliceOrder. -/
theorem claim_C5 :
    (∀ raw r1 r2 doc a b s1 s2 sd1 sd2, parse raw [r1, r2] = .ok doc →
      doc.subDocs = [sd1, sd2] →
      lookupStr sd1.slices a = some s1 → lookupStr sd2.slices b = some s2 →
      lookupStr sd2.slices a = none →
      lookupStr doc.slices a = some s1 ∧ lookupStr doc.slices b = some s2 ∧
        doc.subDocs.length = 2) ∧
    (∀ raw r1 r2 doc n s1 s2 sd1 sd2, parse raw [r1, r2] = .ok doc →
      doc.subDocs = [sd1, sd2] →
      lookupStr sd1.slices n = some s1 → lookupStr sd2.slices n = some s2 →
      lookupStr doc.slices n = some s2 ∧ lookupStr sd1.slices n = some s1) ∧
    ∀ kn sn sv lm cm ld cd lr cr m m2 sd, nodeValue kn = "slices" →
      parseDocument (.document [.mapping [(kn, .mapping [(sn, sv)] lm cm)] ld cd] lr cr) m =
        .ok (m2, sd) →
      sd.sliceOrder = [nodeValue sn] ∧ (lookupStr sd.slices (nodeValue sn)).isSome := by
  refine ⟨?_, ?_, ?_⟩
  · intro raw r1 r2 doc a b s1 s2 sd1 sd2 h hsub h1 h2 h2n
    obtain ⟨m1, sd1b, m2, sd2b, hd1, hd2, hdoc⟩ := parse_two h
    subst hdoc
    simp at hsub
    obtain ⟨hsd1, hsd2⟩ := hsub
    subst hsd1
    subst hsd2
    have hrs1 := parseDocument_RS hd1
    have hrs2 := parseDocument_RS hd2
    refine ⟨?_, ?_, rfl⟩
    · rw [hrs2.2 a h2n, hrs1.1 a (by rw [h1]; rfl), h1]
    · rw [hrs2.1 b (by rw [h2]; rfl), h2]
  · intro raw r1 r2 doc n s1 s2 sd1 sd2 h hsub h1 h2
    obtain ⟨m1, sd1b, m2, sd2b, hd1, hd2, hdoc⟩ := parse_two h
    subst hdoc
    simp at hsub
    obtain ⟨hsd1, hsd2⟩ := hsub
    subst hsd1
    subst hsd2
    have hrs2 := parseDocument_RS hd2
    exact ⟨by rw [hrs2.1 n (by rw [h2]; rfl), h2], h1⟩
  · intro kn sn sv lm cm ld cd lr cr m m2 sd hkey h
    unfold parseDocument at h
    simp only [] at h
    unfold parseDocEntries at h
    split at h
    · split at h
      · cases h
      · next loc order heq =>
        simp only [parseSlices, isNullNode] at heq
        simp only [Bool.false_eq_true, if_false] at heq
        simp only [parseSlicesEntries] at heq
        split at heq
        · cases heq
        · next slice heq2 =>
          simp [parseSlicesEntries] at heq
          obtain ⟨hloc, horder⟩ := heq
          simp only [parseDocEntries] at h
          simp at h
          obtain ⟨hm2, hsd⟩ := h
          rw [← hsd]
          refine ⟨by rw [← horder], ?_⟩
          rw [← horder, ← hloc]
          simp only []
          rw [mergeBatch_lookup]
          rw [if_pos ⟨List.mem_cons_self _ _, by rw [lookup_mapInsert]; simp⟩]
          rw [lookup_mapInsert]
          simp
    · next hne =>
      exact absurd hkey hne

/-- Witness for C5: the distinct-names merge applied to two concrete
single-slice documents. -/
theorem claim_C5_witness :
    lookupStr
        ({ slices := [("a", { name := "a", elements := [], tests := [] }), ("b", { name := "b", elements := [], tests := [] })],
           subDocs := [{ slices := [("a", { name := "a", elements := [], tests := [] })], sliceOrder := ["a"] }, { slices := [("b", { name := "b", elements := [], tests := [] })], sliceOrder := ["b"] }],
           rawSource := [] } : Document).slices "a" = some { name := "a", elements := [], tests := [] } ∧
    lookupStr
        ({ slices := [("a", { name := "a", elements := [], tests := [] }), ("b", { name := "b", elements := [], tests := [] })],
           subDocs := [{ slices := [("a", { name := "a", elements := [], tests := [] })], sliceOrder := ["a"] }, { slices := [("b", { name := "b", elements := [], tests := [] })], sliceOrder := ["b"] }],
           rawSource := [] } : Document).slices "b" = some { name := "b", elements := [], tests := [] } ∧
    ({ slices := [("a", { name := "a", elements := [], tests := [] }), ("b", { name := "b", elements := [], tests := [] })],
       subDocs := [{ slices := [("a", { name := "a", elements := [], tests := [] })], sliceOrder := ["a"] }, { slices := [("b", { name := "b", elements := [], tests := [] })], sliceOrder := ["b"] }],
       rawSource := [] } : Document).subDocs.length = 2 :=
  claim_C5.1 []
    (.document [.mapping [(.scalar "!!str" "slices" 1 1, .mapping [(.scalar "!!str" "a" 2 3, .scalar "!!null" "" 2 6)] 2 3)] 1 1] 1 1)
    (.document [.mapping [(.scalar "!!str" "slices" 4 1, .mapping [(.scalar "!!str" "b" 5 3, .scalar "!!null" "" 5 6)] 5 3)] 4 1] 4 1)
    _ "a" "b" { name := "a", elements := [], tests := [] } { name := "b", elements := [], tests := [] }
    { slices := [("a", { name := "a", elements := [], tests := [] })], sliceOrder := ["a"] }
    { slices := [("b", { name := "b", elements := [], tests := [] })], sliceOrder := ["b"] }
    rfl rfl rfl rfl rfl

/-! ### C7: fail-fast errors and their source lines -/

/-- Whether the rendered error message displays a source line: every
message formats a line number except the root-kind mismatch, which only
formats the node kind; wrapping errors display a line exactly when the
wrapped error does, and the props wrapper prints its own line. -/
def errHasLine : PErr → Bool
  | .expectedMappingAtRoot _ => false
  | .sliceWrap _ e => errHasLine e
  | .stepsWrap e => errHasLine e
  | .testsWrap e => errHasLine e
  | .testWrap _ e => errHasLine e
  | .sectionWrap _ e => errHasLine e
  | _ => true

theorem parseProps_line {node : Node} {e : PErr} (h : parseProps node = .error e) :
    errHasLine e = true := by
  unfold parseProps at h
  split at h
  · cases h
  · injection h with h2
    subst h2
    rfl

theorem applyTypeKey_line {elem : Element} {t : ElementType} {kl : Nat} {v : String}
    {e : PErr} (h : applyTypeKey elem t kl v = .error e) : errHasLine e = true := by
  simp only [applyTypeKey] at h
  split at h
  · injection h with h2
    subst h2
    rfl
  · split at h
    · injection h with h2
      subst h2
      rfl
    · split at h
      · injection h with h2
        subst h2
        rfl
      · cases h

theorem parseElemEntries_line {ml : Nat} {entries : List (Node × Node)} {ft : Bool}
    {elem : Element} {e : PErr} (h : parseElemEntries ml entries ft elem = .error e) :
    errHasLine e = true := by
  induction entries generalizing ft elem with
  | nil => simp [parseElemEntries] at h
  | cons entry rest ih =>
    cases entry with
    | mk keyNode valueNode =>
      simp only [parseElemEntries] at h
      split at h
      · split at h
        · injection h with h2
          subst h2
          rfl
        · exact ih h
      · split at h
        · split at h
          · injection h with h2
            subst h2
            rfl
          · split at h
            · next e2 heq =>
              injection h with h2
              subst h2
              exact applyTypeKey_line heq
            · exact ih h
        · injection h with h2
          subst h2
          rfl

theorem parseElement_line {node : Node} {e : PErr} (h : parseElement node = .error e) :
    errHasLine e = true := by
  unfold parseElement at h
  split at h
  · split at h
    · next e2 heq =>
      injection h with h2
      subst h2
      exact parseElemEntries_line heq
    · cases h
    · injection h with h2
      subst h2
      rfl
  · injection h with h2
    subst h2
    rfl

theorem parseElems_line {items : List Node} {e : PErr} (h : parseElems items = .error e) :
    errHasLine e = true := by
  induction items with
  | nil => simp [parseElems] at h
  | cons item rest ih =>
    unfold parseElems at h
    split at h
    · next e2 heq =>
      injection h with h2
      subst h2
      exact parseElement_line heq
    · split at h
      · next e2 heq =>
        injection h with h2
        subst h2
        exact ih heq
      · cases h

theorem parseElementList_line {node : Node} {e : PErr}
    (h : parseElementList node = .error e) : errHasLine e = true := by
  unfold parseElementList at h
  split at h
  · exact parseElems_line h
  · injection h with h2
    subst h2
    rfl

theorem parseTestSection_line {sec : String} {node : Node} {allowed : ElementType → Bool}
    {e : PErr} (h : parseTestSection sec node allowed = .error e) : errHasLine e = true := by
  unfold parseTestSection at h
  split at h
  · cases h
  · split at h
    · next e2 heq =>
      injection h with h2
      subst h2
      show errHasLine e2 = true
      exact parseElementList_line heq
    · split at h
      · injection h with h2
        subst h2
        rfl
      · cases h

theorem parseTestEntries_line {entries : List (Node × Node)} {test : Test} {e : PErr}
    (h : parseTestEntries entries test = .error e) : errHasLine e = true := by
  induction entries generalizing test with
  | nil => simp [parseTestEntries] at h
  | cons entry rest ih =>
    cases entry with
    | mk keyNode valueNode =>
      unfold parseTestEntries at h
      split at h
      · split at h
        · next e2 heq =>
          injection h with h2
          subst h2
          exact parseTestSection_line heq
        · exact ih h
      · split at h
        · next e2 heq =>
          injection h with h2
          subst h2
          exact parseTestSection_line heq
        · exact ih h
      · split at h
        · next e2 heq =>
          injection h with h2
          subst h2
          exact parseTestSection_line heq
        · exact ih h
      · injection h with h2
        subst h2
        rfl

theorem parseTest_line {name : String} {node : Node} {e : PErr}
    (h : parseTest name node = .error e) : errHasLine e = true := by
  unfold parseTest at h
  split at h
  · cases h
  · split at h
    · exact parseTestEntries_line h
    · injection h with h2
      subst h2
      rfl

theorem parseTestsEntries_line {entries : List (Node × Node)}
    {tests : List (String × Test)} {e : PErr}
    (h : parseTestsEntries entries tests = .error e) : errHasLine e = true := by
  induction entries generalizing tests with
  | nil => simp [parseTestsEntries] at h
  | cons entry rest ih =>
    cases entry with
    | mk keyNode valueNode =>
      simp only [parseTestsEntries] at h
      split at h
      · next e2 heq =>
        injection h with h2
        subst h2
        show errHasLine e2 = true
        exact parseTest_line heq
      · exact ih h

theorem parseTests_line {node : Node} {e : PErr} (h : parseTests node = .error e) :
    errHasLine e = true := by
  unfold parseTests at h
  split at h
  · cases h
  · split at h
    · exact parseTestsEntries_line h
    · injection h with h2
      subst h2
      rfl

theorem parseSliceEntries_line {entries : List (Node × Node)} {st : SliceState} {e : PErr}
    (h : parseSliceEntries entries st = .error e) : errHasLine e = true := by
  induction entries generalizing st with
  | nil => simp [parseSliceEntries] at h
  | cons entry rest ih =>
    cases entry with
    | mk keyNode valueNode =>
      unfold parseSliceEntries at h
      split at h
      · split at h
        · exact ih h
        · split at h
          · next e2 heq =>
            injection h with h2
            subst h2
            show errHasLine e2 = true
            exact parseElementList_line heq
          · split at h
            · injection h with h2
              subst h2
              rfl
            · exact ih h
      · split at h
        · next e2 heq =>
          injection h with h2
          subst h2
          show errHasLine e2 = true
          exact parseTests_line heq
        · exact ih h
      · injection h with h2
        subst h2
        rfl

theorem parseSlice_line {name : String} {node : Node} {e : PErr}
    (h : parseSlice name node = .error e) : errHasLine e = true := by
  unfold parseSlice at h
  split at h
  · cases h
  · split at h
    · split at h
      · next e2 heq =>
        injection h with h2
        subst h2
        exact parseElementList_line heq
      · split at h
        · injection h with h2
          subst h2
          rfl
        · cases h
    · split at h
      · next e2 heq =>
        injection h with h2
        subst h2
        exact parseSliceEntries_line heq
      · split at h
        · injection h with h2
          subst h2
          rfl
        · cases h
    · injection h with h2
      subst h2
      rfl

theorem parseSlicesEntries_line {entries : List (Node × Node)}
    {slices : List (String × Slice)} {order : List String} {e : PErr}
    (h : parseSlicesEntries entries slices order = .error e) : errHasLine e = true := by
  induction entries generalizing slices order with
  | nil => simp [parseSlicesEntries] at h
  | cons entry rest ih =>
    cases entry with
    | mk keyNode valueNode =>
      simp only [parseSlicesEntries] at h
      split at h
      · next e2 heq =>
        injection h with h2
        subst h2
        show errHasLine e2 = true
        exact parseSlice_line heq
      · exact ih h

theorem parseSlices_line {node : Node} {e : PErr} (h : parseSlices node = .error e) :
    errHasLine e = true := by
  unfold parseSlices at h
  split at h
  · cases h
  · split at h
    · exact parseSlicesEntries_line h
    · injection h with h2
      subst h2
      rfl

theorem parseDocEntries_line {entries : List (Node × Node)}
    {docSlices : List (String × Slice)} {subDoc : SubDoc} {e : PErr}
    (h : parseDocEntries entries docSlices subDoc = .error e) : errHasLine e = true := by
  induction entries generalizing docSlices subDoc with
  | nil => simp [parseDocEntries] at h
  | cons entry rest ih =>
    cases entry with
    | mk keyNode valueNode =>
      unfold parseDocEntries at h
      split at h
      · split at h
        · next e2 heq =>
          injection h with h2
          subst h2
          exact parseSlices_line heq
        · exact ih h
      · injection h with h2
        subst h2
        rfl

theorem parseDocument_line {root : Node} {docSlices : List (String × Slice)} {e : PErr}
    (h : parseDocument root docSlices = .error e) :
    errHasLine e = true ∨ ∃ k, e = .expectedMappingAtRoot k := by
  unfold parseDocument at h
  split at h
  · split at h
    · cases h
    · split at h
      · exact Or.inl (parseDocEntries_line h)
      · injection h with h2
        subst h2
        exact Or.inr ⟨_, rfl⟩
  · cases h

theorem parseDocs_line {roots : List Node} {docSlices : List (String × Slice)}
    {subDocs : List SubDoc} {e : PErr}
    (h : parseDocs roots docSlices subDocs = .error e) :
    errHasLine e = true ∨ ∃ k, e = .expectedMappingAtRoot k := by
  induction roots generalizing docSlices subDocs with
  | nil => simp [parseDocs] at h
  | cons root rest ih =>
    unfold parseDocs at h
    split at h
    · next e2 heq =>
      injection h with h2
      subst h2
      exact parseDocument_line heq
    · exact ih h

/-- C7 as amended: Parse yields either a Document or an error, never both;
and every error carries the 1-based line of the offending node except the
root-kind mismatch, which reports only the offending node's kind. -/
theorem claim_C7 :
    (∀ raw roots, (∃ d, parse raw roots = .ok d) ∨ ∃ e, parse raw roots = .error e) ∧
    (∀ raw roots d e, ¬ (parse raw roots = .ok d ∧ parse raw roots = .error e)) ∧
    ∀ raw roots e, parse raw roots = .error e →
      errHasLine e = true ∨ ∃ k, e = .expectedMappingAtRoot k := by
  refine ⟨?_, ?_, ?_⟩
  · intro raw roots
    cases hp : parse raw roots with
    | ok d => exact Or.inl ⟨d, rfl⟩
    | error e => exact Or.inr ⟨e, rfl⟩
  · rintro raw roots d e ⟨h1, h2⟩
    rw [h1] at h2
    cases h2
  · intro raw roots e h
    unfold parse at h
    split at h
    · next e2 heq =>
      injection h with h2
      subst h2
      exact parseDocs_line heq
    · cases h

/-- Counterexample for C7 as stated: a document whose root is a sequence is
a grammar violation, and its error reports only the node kind, with no
line. -/
theorem claim_C7_counterexample :
    parse [] [.document [.sequence [] 7 1] 1 1] =
      .error (.expectedMappingAtRoot .sequenceNode) ∧
    errHasLine (.expectedMappingAtRoot .sequenceNode) = false :=
  ⟨rfl, rfl⟩

/-- Witness for C7: the line property applied to the trailing-slash error
of a concrete source. -/
theorem claim_C7_witness :
    errHasLine (.sliceWrap "s" (.nameTrailingSlash 3)) = true ∨
      ∃ k, (PErr.sliceWrap "s" (.nameTrailingSlash 3)) = .expectedMappingAtRoot k :=
  claim_C7.2.2 []
    [.document [.mapping [(.scalar "!!str" "slices" 2 1,
      .mapping [(.scalar "!!str" "s" 3 1,
        .sequence [.mapping [(.scalar "!!str" "e" 3 5, .scalar "!!str" "Bad/" 3 8)] 3 5] 3 3)] 3 1)] 2 1] 2 1]
    (.sliceWrap "s" (.nameTrailingSlash 3)) rfl

/-! ### C8: content hash and document identity -/

theorem hexFixed_length (k : Nat) : ∀ n, (hexFixed k n).length = k := by
  induction k with
  | zero => intro n; rfl
  | succ k ih => intro n; simp [hexFixed, ih]

theorem hexFixed_split (j k n : Nat) :
    hexFixed (j + k) n = hexFixed j (n / 16 ^ k) ++ hexFixed k (n % 16 ^ k) := by
  induction k generalizing n with
  | zero => simp [hexFixed]
  | succ k ih =>
    have e1 : n / 16 / 16 ^ k = n / 16 ^ (k + 1) := by
      rw [Nat.div_div_eq_div_mul, pow_succ, Nat.mul_comm]
    have e2 : n / 16 % 16 ^ k = n % 16 ^ (k + 1) / 16 := by
      rw [pow_succ, Nat.mul_comm, Nat.mod_mul_right_div_self]
    have e3 : n % 16 ^ (k + 1) % 16 = n % 16 := by
      refine Nat.mod_mod_of_dvd n ⟨16 ^ k, ?_⟩
      rw [pow_succ, Nat.mul_comm]
    show hexFixed ((j + k) + 1) n = _
    simp only [hexFixed]
    rw [ih, e1, e2, ← e3, List.append_assoc]

theorem take12_five (a b c d e : List Char) (ha : a.length = 8) (hb : b.length = 8) :
    (a ++ b ++ c ++ d ++ e).take 12 = a ++ b.take 4 := by
  have h1 : a ++ b ++ c ++ d ++ e = a ++ (b ++ (c ++ (d ++ e))) := by
    simp [List.append_assoc]
  rw [h1, List.take_append_eq_append_take, ha,
    List.take_of_length_le (by omega), List.take_append_eq_append_take, hb]
  simp

theorem hexFixed_take (h2 : Nat) :
    (hexFixed 8 h2).take 4 = hexFixed 4 (h2 / 65536) := by
  have h8 : hexFixed 8 h2 = hexFixed 4 (h2 / 65536) ++ hexFixed 4 (h2 % 65536) :=
    hexFixed_split 4 4 h2
  rw [h8]
  exact List.take_left' (hexFixed_length 4 _)

theorem processChunk_lt (h : Nat × Nat × Nat × Nat × Nat) (c : List Nat) :
    (processChunk h c).1 < 4294967296 ∧ (processChunk h c).2.1 < 4294967296 := by
  simp only [processChunk, w32]
  exact ⟨Nat.mod_lt _ (by norm_num), Nat.mod_lt _ (by norm_num)⟩

theorem foldl_processChunk_lt (l : List (List Nat)) :
    ∀ h0 : Nat × Nat × Nat × Nat × Nat, h0.1 < 4294967296 → h0.2.1 < 4294967296 →
      (l.foldl processChunk h0).1 < 4294967296 ∧
        (l.foldl processChunk h0).2.1 < 4294967296 := by
  induction l with
  | nil => intro h0 a b; exact ⟨a, b⟩
  | cons c cs ih =>
    intro h0 a b
    rw [List.foldl_cons]
    refine ih (processChunk h0 c) ?_ ?_
    · exact (processChunk_lt h0 c).1
    · exact (processChunk_lt h0 c).2

theorem sha1Words_lt (msg : List Nat) :
    (sha1Words msg).1 < 4294967296 ∧ (sha1Words msg).2.1 < 4294967296 := by
  unfold sha1Words
  exact foldl_processChunk_lt _ _ (by norm_num) (by norm_num)

/-- The first 48 bits of the digest, the numeric value of the 12 hex
characters contentHash keeps. -/
def contentHashKey (raw : List Nat) : Nat :=
  (sha1Words raw).1 * 65536 + (sha1Words raw).2.1 / 65536

theorem contentHashKey_lt (raw : List Nat) : contentHashKey raw < 16 ^ 12 := by
  have hb := sha1Words_lt raw
  have h2 : (sha1Words raw).2.1 / 65536 < 65536 := Nat.div_lt_of_lt_mul hb.2
  have h1 := hb.1
  have hp : (16 : Nat) ^ 12 = 281474976710656 := by norm_num
  unfold contentHashKey
  rw [hp]
  omega

theorem contentHash_eq_hexKey (raw : List Nat) :
    contentHash raw = ⟨hexFixed 12 (contentHashKey raw)⟩ := by
  have hq : (sha1Words raw).2.1 / 65536 < 65536 :=
    Nat.div_lt_of_lt_mul (sha1Words_lt raw).2
  have hkd : ((sha1Words raw).1 * 65536 + (sha1Words raw).2.1 / 65536) / 65536 =
      (sha1Words raw).1 := by
    rw [Nat.mul_comm, Nat.mul_add_div (by norm_num), Nat.div_eq_of_lt hq, Nat.add_zero]
  have hkm : ((sha1Words raw).1 * 65536 + (sha1Words raw).2.1 / 65536) % 65536 =
      (sha1Words raw).2.1 / 65536 := by
    rw [Nat.mul_comm, Nat.mul_add_mod, Nat.mod_eq_of_lt hq]
  have hsplit : hexFixed 12 (contentHashKey raw) =
      hexFixed 8 (contentHashKey raw / 65536) ++ hexFixed 4 (contentHashKey raw % 65536) :=
    hexFixed_split 8 4 _
  simp only [contentHash]
  congr 1
  rw [take12_five _ _ _ _ _ (hexFixed_length 8 _) (hexFixed_length 8 _), hexFixed_take,
    hsplit]
  unfold contentHashKey
  rw [hkd, hkm]

theorem contentHash_collision :
    ∃ raw1 raw2 : List Nat, raw1 ≠ raw2 ∧ contentHash raw1 = contentHash raw2 := by
  obtain ⟨m, n, hmn, heq⟩ :=
    Finite.exists_ne_map_eq_of_infinite
      (fun n : Nat =>
        (⟨contentHashKey (List.replicate n 0), contentHashKey_lt _⟩ : Fin (16 ^ 12)))
  refine ⟨List.replicate m 0, List.replicate n 0, ?_, ?_⟩
  · intro hEq
    apply hmn
    have := congrArg List.length hEq
    simpa using this
  · have hk : contentHashKey (List.replicate m 0) = contentHashKey (List.replicate n 0) := by
      have := congrArg Fin.val heq
      simpa using this
    rw [contentHash_eq_hexKey, contentHash_eq_hexKey, hk]

/-- Decode the decimal rendering back to the number. -/
def decodeDecL (l : List Char) : Nat :=
  Nat.ofDigits 10 (l.reverse.map (fun c => c.toNat - 48))

theorem decodeDecL_natDec (n : Nat) : decodeDecL (natDec n).data = n := by
  by_cases h : n = 0
  · subst h
    decide
  · have hdata : (natDec n).data = ((Nat.digits 10 n).reverse.map Nat.digitChar) := by
      simp [natDec, h]
    rw [hdata]
    unfold decodeDecL
    have hrev : (((Nat.digits 10 n).reverse.map Nat.digitChar).reverse) =
        (Nat.digits 10 n).map Nat.digitChar := by
      simp
    rw [hrev, List.map_map]
    have hcong : (Nat.digits 10 n).map ((fun c : Char => c.toNat - 48) ∘ Nat.digitChar) =
        (Nat.digits 10 n).map id := by
      apply List.map_congr_left
      intro d hd
      have hd10 : d < 10 := Nat.digits_lt_base (by norm_num) hd
      have hx : ∀ x, x < 10 → (Nat.digitChar x).toNat - 48 = x := by decide
      exact hx d hd10
    rw [hcong, List.map_id]
    exact Nat.ofDigits_digits 10 n

theorem natDecL_inj {i j : Nat} (h : (natDec i).data = (natDec j).data) : i = j := by
  have h1 := decodeDecL_natDec i
  rw [h, decodeDecL_natDec] at h1
  exact h1.symm

theorem data_append (s t : String) : (s ++ t).data = s.data ++ t.data := by
  cases s
  cases t
  rfl

theorem documentID_inj {hash : String} {i j : Nat}
    (h : documentID hash i = documentID hash j) : i = j := by
  have hdata := congrArg String.data h
  simp only [documentID, data_append] at hdata
  exact natDecL_inj (List.append_cancel_left hdata)

theorem buildDiagramData_documents (g : Generator) (doc : Document) :
    (buildDiagramData g doc).documents =
      doc.subDocs.enum.map (fun p => buildDocumentData (contentHash doc.rawSource) p.1 p.2) :=
  rfl

theorem buildDiagramData_id {g : Generator} {doc : Document} {i : Nat} {dd : DocumentData}
    (h : (buildDiagramData g doc).documents[i]? = some dd) :
    dd.id = documentID (contentHash doc.rawSource) i := by
  rw [buildDiagramData_documents, List.getElem?_map, List.getElem?_enum] at h
  cases hsd : doc.subDocs[i]? with
  | none =>
    rw [hsd] at h
    simp at h
  | some sd =>
    rw [hsd] at h
    simp at h
    rw [← h]
    rfl

/-- C8 as amended: every document entry of the built diagram data carries
the identifier made of the content hash of the entire raw source plus the
entry's 0-based index; repeated Parse plus data building from the same
source yields identical diagram data; and distinct sibling documents of
one source get distinct identifiers.  (The further claim that the
identifier changes whenever the source changes fails: the hash keeps only
the first 12 hex characters of the digest, so two distinct sources share
a hash.) -/
theorem claim_C8 :
    (∀ (g : Generator) (doc : Document) (i : Nat) (dd : DocumentData),
        (buildDiagramData g doc).documents[i]? = some dd →
        dd.id = documentID (contentHash doc.rawSource) i) ∧
    (∀ (g : Generator) (raw : List Nat) (roots : List Node) (d1 d2 : Document),
        parse raw roots = .ok d1 → parse raw roots = .ok d2 →
        buildDiagramData g d1 = buildDiagramData g d2) ∧
    (∀ (g : Generator) (doc : Document) (i j : Nat) (ddi ddj : DocumentData),
        (buildDiagramData g doc).documents[i]? = some ddi →
        (buildDiagramData g doc).documents[j]? = some ddj → i ≠ j →
        ddi.id ≠ ddj.id) := by
  refine ⟨?_, ?_, ?_⟩
  · intro g doc i dd h
    exact buildDiagramData_id h
  · intro g raw roots d1 d2 h1 h2
    rw [h1] at h2
    injection h2 with h3
    rw [h3]
  · intro g doc i j ddi ddj hi hj hne hEq
    rw [buildDiagramData_id hi, buildDiagramData_id hj] at hEq
    exact hne (documentID_inj hEq)

/-- Counterexample for C8 as stated: two distinct raw sources whose
truncated content hashes, and hence whose document identifiers, coincide
(the 48-bit truncation cannot separate all sources). -/
theorem claim_C8_counterexample :
    ∃ raw1 raw2 : List Nat, raw1 ≠ raw2 ∧ contentHash raw1 = contentHash raw2 ∧
      documentID (contentHash raw1) 0 = documentID (contentHash raw2) 0 := by
  obtain ⟨r1, r2, hne, hh⟩ := contentHash_collision
  exact ⟨r1, r2, hne, hh, by rw [hh]⟩

/-- Witness for C8: the identifier equations and sibling distinctness on a
concrete two-document source. -/
theorem claim_C8_witness :
    (∃ dd, (buildDiagramData { cssOverrides := [] } { slices := [], rawSource := [101], subDocs := [{ slices := [], sliceOrder := [] }, { slices := [], sliceOrder := [] }] }).documents[0]? = some dd ∧ dd.id = documentID (contentHash [101]) 0) ∧
    (∃ dd0 dd1, (buildDiagramData { cssOverrides := [] } { slices := [], rawSource := [101], subDocs := [{ slices := [], sliceOrder := [] }, { slices := [], sliceOrder := [] }] }).documents[0]? = some dd0 ∧ (buildDiagramData { cssOverrides := [] } { slices := [], rawSource := [101], subDocs := [{ slices := [], sliceOrder := [] }, { slices := [], sliceOrder := [] }] }).documents[1]? = some dd1 ∧ dd0.id ≠ dd1.id) := by
  constructor
  · exact ⟨_, rfl, claim_C8.1 { cssOverrides := [] } { slices := [], rawSource := [101], subDocs := [{ slices := [], sliceOrder := [] }, { slices := [], sliceOrder := [] }] } 0 _ rfl⟩
  · exact ⟨_, _, rfl, rfl, claim_C8.2.2 { cssOverrides := [] } { slices := [], rawSource := [101], subDocs := [{ slices := [], sliceOrder := [] }, { slices := [], sliceOrder := [] }] } 0 1 _ _ rfl rfl (by decide)⟩

/-! ### C10: SliceOrder versus the slices map -/

/-- A physical document repeats neither the top-level slices key nor a
slice name inside one slices mapping. -/
def rootOk (root : Node) : Prop :=
  match root with
  | .document (docNode :: _) _ _ =>
    match docNode with
    | .mapping pairs _ _ =>
      pairs.countP (fun p => nodeValue p.1 == "slices") ≤ 1 ∧
      ∀ p ∈ pairs, nodeValue p.1 = "slices" →
        match p.2 with
        | .mapping mp _ _ => (mp.map (fun q => nodeValue q.1)).Nodup
        | _ => True
    | _ => True
  | _ => True

theorem parseSlicesEntries_order {entries : List (Node × Node)}
    {slices slices2 : List (String × Slice)} {order order2 : List String}
    (h : parseSlicesEntries entries slices order = .ok (slices2, order2)) :
    order2 = order ++ entries.map (fun p => nodeValue p.1) := by
  induction entries generalizing slices order with
  | nil =>
    simp [parseSlicesEntries] at h
    simp [← h.2]
  | cons entry rest ih =>
    cases entry with
    | mk keyNode valueNode =>
      simp only [parseSlicesEntries] at h
      split at h
      · cases h
      · next slice heq =>
        rw [ih h]
        simp

theorem parseSlicesEntries_keys {entries : List (Node × Node)}
    {slices slices2 : List (String × Slice)} {order order2 : List String}
    (h : parseSlicesEntries entries slices order = .ok (slices2, order2)) :
    ∀ n, (lookupStr slices2 n).isSome = true ↔
      ((lookupStr slices n).isSome = true ∨ n ∈ entries.map (fun p => nodeValue p.1)) := by
  induction entries generalizing slices order with
  | nil =>
    simp [parseSlicesEntries] at h
    intro n
    rw [← h.1]
    simp
  | cons entry rest ih =>
    cases entry with
    | mk keyNode valueNode =>
      simp only [parseSlicesEntries] at h
      split at h
      · cases h
      · next slice heq =>
        intro n
        rw [ih h n]
        rw [lookup_mapInsert]
        by_cases hn : nodeValue keyNode = n
        · subst hn
          simp
        · have hns : ¬ n = nodeValue keyNode := fun hEq => hn hEq.symm
          simp [hn, hns]

theorem parseDocEntries_all_slices {entries : List (Node × Node)}
    {m : List (String × Slice)} {sd : SubDoc} {m2 : List (String × Slice)} {sd2 : SubDoc}
    (h : parseDocEntries entries m sd = .ok (m2, sd2)) :
    ∀ p ∈ entries, nodeValue p.1 = "slices" := by
  induction entries generalizing m sd with
  | nil =>
    intro p hp
    cases hp
  | cons entry rest ih =>
    cases entry with
    | mk keyNode valueNode =>
      unfold parseDocEntries at h
      split at h
      · next hkey =>
        split at h
        · cases h
        · next loc order heq =>
          intro p hp
          rcases List.mem_cons.mp hp with rfl | hp2
          · exact hkey
          · exact ih h p hp2
      · cases h

theorem parseDocEntries_cases {entries : List (Node × Node)}
    {m : List (String × Slice)} {sd : SubDoc} {m2 : List (String × Slice)} {sd2 : SubDoc}
    (h : parseDocEntries entries m sd = .ok (m2, sd2))
    (hcount : entries.countP (fun p => nodeValue p.1 == "slices") ≤ 1) :
    (entries = [] ∧ sd2 = sd) ∨
      ∃ kn vn, entries = [(kn, vn)] ∧ nodeValue kn = "slices" ∧
        ∃ loc order, parseSlices vn = .ok (loc, order) ∧
          sd2 = { slices := mergeBatch sd.slices loc order, sliceOrder := order } := by
  cases entries with
  | nil =>
    simp [parseDocEntries] at h
    exact Or.inl ⟨rfl, h.2.symm⟩
  | cons entry rest =>
    cases entry with
    | mk keyNode valueNode =>
      unfold parseDocEntries at h
      split at h
      · next hkey =>
        split at h
        · cases h
        · next loc order heq =>
          have hall := parseDocEntries_all_slices h
          have hrest : rest = [] := by
            cases rest with
            | nil => rfl
            | cons q qs =>
              exfalso
              have hq := hall q (List.mem_cons_self _ _)
              have e1 : (nodeValue (keyNode, valueNode).1 == "slices") = true := by
                simp [hkey]
              have e2 : (nodeValue q.1 == "slices") = true := by
                simp [hq]
              rw [List.countP_cons, List.countP_cons, e1, e2] at hcount
              simp at hcount
          subst hrest
          simp [parseDocEntries] at h
          exact Or.inr ⟨keyNode, valueNode, rfl, hkey, loc, order, heq, h.2.symm⟩
      · cases h

theorem parseSlices_char {node : Node} {loc : List (String × Slice)} {order : List String}
    (h : parseSlices node = .ok (loc, order)) :
    (∀ n, (lookupStr loc n).isSome = true ↔ n ∈ order) ∧
      (node = node → ∀ mp lm cm, node = .mapping mp lm cm →
        order = mp.map (fun q => nodeValue q.1)) := by
  unfold parseSlices at h
  split at h
  · simp at h
    constructor
    · intro n
      rw [h.1, h.2]
      simp [lookupStr]
    · intro _ mp lm cm hmp
      subst hmp
      exact absurd ‹isNullNode (Node.mapping mp lm cm) = true› (by simp [isNullNode])
  · split at h
    · next pairs lm cm =>
      have horder := parseSlicesEntries_order h
      have hkeys := parseSlicesEntries_keys h
      constructor
      · intro n
        rw [hkeys n, horder]
        simp [lookupStr]
      · intro _ mp lm2 cm2 hmp
        injection hmp with h1 h2 h3
        subst h1
        rw [horder]
        simp
    · cases h

theorem parseDocument_orderInv {root : Node} {m m2 : List (String × Slice)} {sd : SubDoc}
    (h : parseDocument root m = .ok (m2, sd)) (hok : rootOk root) :
    sd.sliceOrder.Nodup ∧ ∀ n, n ∈ sd.sliceOrder ↔ (lookupStr sd.slices n).isSome = true := by
  unfold parseDocument at h
  split at h
  · split at h
    · simp at h
      rw [← h.2]
      exact ⟨List.nodup_nil, fun n => by simp [lookupStr]⟩
    · next docNode restItems =>
      split at h
      · next pairs ld cd =>
        unfold rootOk at hok
        have hcount := hok.1
        rcases parseDocEntries_cases h hcount with ⟨hent, hsd⟩ | hcase
        · subst hsd
          exact ⟨List.nodup_nil, fun n => by simp [lookupStr]⟩
        · obtain ⟨kn, vn, hent, hkey, loc, order, heq, hsd⟩ := hcase
          subst hsd
          have hchar := parseSlices_char heq
          constructor
          · cases hv : vn with
            | mapping mp lm cm =>
              have horder := hchar.2 rfl mp lm cm hv
              rw [horder]
              have := hok.2 (kn, vn) (by rw [hent]; exact List.mem_cons_self _ _) hkey
              rw [hv] at this
              exact this
            | scalar tag v l2 c2 =>
              subst hv
              unfold parseSlices at heq
              split at heq
              · simp at heq
                rw [heq.2]
                exact List.nodup_nil
              · simp at heq
            | sequence its l2 c2 =>
              subst hv
              simp [parseSlices, isNullNode] at heq
            | aliasNode tgt l2 c2 =>
              subst hv
              simp [parseSlices, isNullNode] at heq
            | document its l2 c2 =>
              subst hv
              simp [parseSlices, isNullNode] at heq
          · intro n
            simp only []
            rw [mergeBatch_lookup]
            by_cases hmem : n ∈ order
            · have hsome := (hchar.1 n).mpr hmem
              rw [if_pos ⟨hmem, hsome⟩]
              simp [hmem, hsome]
            · rw [if_neg (fun hand => hmem hand.1)]
              simp [hmem, lookupStr]
      · cases h
  · simp at h
    rw [← h.2]
    exact ⟨List.nodup_nil, fun n => by simp [lookupStr]⟩

theorem parseDocs_orderInv {roots : List Node} {m : List (String × Slice)}
    {sds : List SubDoc} {m2 : List (String × Slice)} {sds2 : List SubDoc}
    (h : parseDocs roots m sds = .ok (m2, sds2)) (hok : ∀ root ∈ roots, rootOk root)
    (hprev : ∀ sd ∈ sds, sd.sliceOrder.Nodup ∧
      ∀ n, n ∈ sd.sliceOrder ↔ (lookupStr sd.slices n).isSome = true) :
    ∀ sd ∈ sds2, sd.sliceOrder.Nodup ∧
      ∀ n, n ∈ sd.sliceOrder ↔ (lookupStr sd.slices n).isSome = true := by
  induction roots generalizing m sds with
  | nil =>
    simp [parseDocs] at h
    rw [← h.2]
    exact hprev
  | cons root rest ih =>
    unfold parseDocs at h
    split at h
    · cases h
    · next m3 sd3 heq =>
      refine ih h (fun r hr => hok r (List.mem_cons_of_mem _ hr)) ?_
      intro sd hsd
      rcases List.mem_append.mp hsd with h2 | h2
      · exact hprev sd h2
      · simp at h2
        subst h2
        exact parseDocument_orderInv heq (hok root (List.mem_cons_self _ _))

/-- C10 as amended: in every Document returned by Parse from physical
documents that repeat neither the top-level slices key nor a slice name
within one slices mapping, each SubDoc's SliceOrder is duplicate-free and
contains exactly the keys of that SubDoc's slices map.  (With a repeated
slices key the order records only the last batch, and a repeated slice name
appears twice in the order but once in the map, so the general claim
fails.) -/
theorem claim_C10 :
    ∀ raw roots d, parse raw roots = .ok d → (∀ root ∈ roots, rootOk root) →
      ∀ sd ∈ d.subDocs, sd.sliceOrder.Nodup ∧
        ∀ n, n ∈ sd.sliceOrder ↔ (lookupStr sd.slices n).isSome = true := by
  intro raw roots d h hok
  unfold parse at h
  split at h
  · cases h
  · next slices2 subDocs2 heq =>
    simp at h
    rw [← h]
    exact parseDocs_orderInv heq hok (fun sd hsd => absurd hsd (by simp))

/-- Counterexample for C10 as stated: one physical document whose slices
mapping repeats the name a parses without error, yet the SubDoc's
SliceOrder is the duplicated list, which is not duplicate-free. -/
theorem claim_C10_counterexample :
    ∃ d, parse []
        [.document [.mapping [(.scalar "!!str" "slices" 1 1,
          .mapping [(.scalar "!!str" "a" 2 3, .scalar "!!null" "" 2 6),
            (.scalar "!!str" "a" 3 3, .scalar "!!null" "" 3 6)] 2 3)] 1 1] 1 1] = .ok d ∧
      ∃ sd, d.subDocs = [sd] ∧ sd.sliceOrder = ["a", "a"] ∧ ¬ sd.sliceOrder.Nodup := by
  refine ⟨_, rfl, _, rfl, rfl, by decide⟩

/-- Witness for C10: the amended invariant applied to a concrete
well-formed document. -/
theorem claim_C10_witness :
    ({ slices := [("a", { name := "a", elements := [], tests := [] })], sliceOrder := ["a"] } : SubDoc).sliceOrder.Nodup ∧
      ∀ n, n ∈ ({ slices := [("a", { name := "a", elements := [], tests := [] })], sliceOrder := ["a"] } : SubDoc).sliceOrder ↔
        (lookupStr ({ slices := [("a", { name := "a", elements := [], tests := [] })], sliceOrder := ["a"] } : SubDoc).slices n).isSome = true :=
  claim_C10 []
    [.document [.mapping [(.scalar "!!str" "slices" 1 1,
      .mapping [(.scalar "!!str" "a" 2 3, .scalar "!!null" "" 2 6)] 2 3)] 1 1] 1 1]
    _ rfl
    (by
      intro root hr
      simp at hr
      subst hr
      refine ⟨by decide, ?_⟩
      intro p hp hkey
      simp at hp
      subst hp
      simp)
    { slices := [("a", { name := "a", elements := [], tests := [] })], sliceOrder := ["a"] }
    (by exact List.Mem.head _)

end Emlang
